import Mathlib

/-!
Verification of the Thallium ECS core (crates/thallium_ecs) against its
natural-language specification.  Each Rust module that the claims touch is
shallowly embedded as executable Lean definitions, and the claims are settled
as theorems about those definitions.

Conventions used throughout the embedding:
- `usize` and `u64` values are modelled as `Nat`; generation arithmetic never
  silently wraps in the source (overflow would panic via `NonZeroUsize::new`,
  a path the specification treats as a fatal invariant breach), so `Nat` is
  adequate.
- `TypeId` is modelled as `Nat`.
- `HashSet of TypeId` attached to an entity slot is modelled as a list of
  type ids (its contents are never consulted by the claims considered here).
- `g | 1` on a generation is `setLowBit g`, and `g et-not 1` (clearing the low
  bit) is `clearLowBit g`, written arithmetically on `Nat`.
-/

namespace Thallium

/-- Models setting the low bit of a generation, the Rust expression
with the bitwise-or of the generation and 1. -/
def setLowBit (g : Nat) : Nat := if g % 2 = 0 then g + 1 else g

/-- Models clearing the low bit of a generation, the Rust expression
with the bitwise-and of the generation and the complement of 1. -/
def clearLowBit (g : Nat) : Nat := if g % 2 = 0 then g else g - 1

/-- entities.rs: an entity handle, a pair of id and generation
(the generation is a NonZeroUsize in the source). -/
structure Entity where
  id : Nat
  generation : Nat
deriving DecidableEq, Repr

/-- entities.rs: the entity registry.  Each slot stores a generation and the
set of attached component type ids; a cursor remembers where allocation
scans from. -/
structure EntityMap where
  entities : List (Nat × List Nat)
  next_free_entity : Nat
deriving DecidableEq, Repr

namespace EntityMap

/-- entities.rs EntityMap::new. -/
def new : EntityMap := ⟨[], 0⟩

/-- entities.rs: the body of the while-let loop at the end of the revival
branch of create_entity, walking the suffix of the slot list that starts at
the cursor.  Each step reads the generation at the cursor, increments the
cursor, and stops when the generation it just read was odd (or when the read
ran past the end).  Note that the increment happens before the odd test,
exactly as in the source. -/
def advanceGo : List (Nat × List Nat) → Nat → Nat
  | [], nfe => nfe
  | (g, _) :: rest, nfe =>
    if g % 2 = 1 then nfe + 1 else advanceGo rest (nfe + 1)

/-- entities.rs: the while-let loop at the end of the revival branch of
create_entity; reading slots from index nfe onwards is walking the suffix
obtained by dropping the first nfe slots. -/
def advance (entities : List (Nat × List Nat)) (nfe : Nat) : Nat :=
  advanceGo (entities.drop nfe) nfe

/-- entities.rs EntityMap::create_entity. -/
def create_entity (m : EntityMap) : Entity × EntityMap :=
  let id := m.next_free_entity
  match m.entities[id]? with
  | some (generation, s) =>
    let generation := generation + 1
    let entities := m.entities.set id (generation, s)
    (⟨id, generation⟩, ⟨entities, advance entities id⟩)
  | none =>
    (⟨id, 2⟩, ⟨m.entities ++ [(2, [])], m.entities.length + 1⟩)

/-- entities.rs EntityMap::entity_exists. -/
def entity_exists (m : EntityMap) (e : Entity) : Bool :=
  match m.entities[e.id]? with
  | some (g, _) => g = e.generation
  | none => false

/-- entities.rs EntityMap::destroy_entity: on a live handle, set the low bit
of the stored generation, pull the cursor back, and yield out the attached
type set (mem::take leaves the empty set behind). -/
def destroy_entity (m : EntityMap) (e : Entity) : Option (List Nat) × EntityMap :=
  match m.entities[e.id]? with
  | some (g, s) =>
    if g = e.generation then
      (some s,
        ⟨m.entities.set e.id (setLowBit g, []),
         if e.id < m.next_free_entity then e.id else m.next_free_entity⟩)
    else (none, m)
  | none => (none, m)

/-- entities.rs EntityMap::iter: one element per slot, Some for alive (even
generation) slots, None for dead ones; the enumerate index is the id. -/
def iterList (m : EntityMap) : List (Option Entity) :=
  (List.range m.entities.length).map fun i =>
    match m.entities[i]? with
    | some (g, _) => if g % 2 = 0 then some ⟨i, g⟩ else none
    | none => none

end EntityMap

/-- C5: the claim asserts that in every reachable registry state the cursor
next_free_entity is at most the id of every dead (odd-generation) slot.  The
code violates this: the advance loop in create_entity increments the cursor
before testing the generation it read for oddness, so on finding a dead slot
it stops one past it.  After the operation sequence create, create, create,
destroy the id-1 handle, destroy the id-2 handle, create, the registry holds
generations 2, 4, 3 and the cursor is 3, although slot 2 is dead (generation
3 is odd) and 2 is less than 3. -/
theorem c5_cursor_overshoots_dead_slot :
    (let m0 : EntityMap := EntityMap.new
     let s1 := m0.create_entity
     let s2 := s1.2.create_entity
     let s3 := s2.2.create_entity
     let d1 := s3.2.destroy_entity s2.1
     let d2 := d1.2.destroy_entity s3.1
     let s4 := d2.2.create_entity
     s4.2.entities.map Prod.fst = [2, 4, 3] ∧
       s4.2.next_free_entity = 3 ∧
       ((s4.2.entities.map Prod.fst)[2]?.getD 0) % 2 = 1 ∧
       ¬ s4.2.next_free_entity ≤ 2) := by
  decide

/-- C8: the claim asserts that every handle returned by create_entity has an
even generation and that the triple create, destroy, create at one id yields
two even generations differing by 2.  Because the cursor overshoot of C5 can
leave next_free_entity pointing at an alive slot, create_entity can bump an
alive (even) generation to an odd one and hand that odd handle out.  From the
reachable state after create, create, create, create, destroy id 1, destroy
id 2, create, the triple e1 = create; destroy e1; e2 = create returns
e1 = (3, 3) with an odd generation and e2 = (3, 4), so the generations are
not both even and differ by 1, not 2. -/
theorem c8_create_returns_odd_generation :
    (let m0 : EntityMap := EntityMap.new
     let s1 := m0.create_entity
     let s2 := s1.2.create_entity
     let s3 := s2.2.create_entity
     let s4 := s3.2.create_entity
     let d1 := s4.2.destroy_entity s2.1
     let d2 := d1.2.destroy_entity s3.1
     let s5 := d2.2.create_entity
     let e1s := s5.2.create_entity
     let d3 := e1s.2.destroy_entity e1s.1
     let e2s := d3.2.create_entity
     e1s.1 = ⟨3, 3⟩ ∧ e2s.1 = ⟨3, 4⟩ ∧
       e1s.1.generation % 2 = 1 ∧
       ¬ (e1s.1.generation % 2 = 0 ∧ e2s.1.generation % 2 = 0 ∧
            e2s.1.generation = e1s.1.generation + 2)) := by
  decide

/-- component_container.rs: a component slot, holding the generation of the
owning entity, the component value and the tick of last modification. -/
structure ComponentSlot (C : Type) where
  generation : Nat
  component : C
  last_modified_tick : Nat
deriving DecidableEq, Repr

/-- component_container.rs: a component table, a sequence of optional slots
indexed by entity id. -/
structure ComponentContainer (C : Type) where
  components : List (Option (ComponentSlot C))
deriving DecidableEq, Repr

/-- query.rs: the read view over a component.  It carries the slot value, the
slot tick of last modification and the last-run tick of the observing
system. -/
structure Ref (C : Type) where
  component : C
  last_modified_tick : Nat
  last_run_tick : Nat
deriving DecidableEq, Repr

/-- query.rs: the write view over a component.  The component and
last_modified_tick fields model the two mutable borrows into the slot; the
view additionally carries the last-run tick of the observing system and the
current tick. -/
structure RefMut (C : Type) where
  component : C
  last_modified_tick : Nat
  last_run_tick : Nat
  current_tick : Nat
deriving DecidableEq, Repr

namespace Ref

/-- query.rs Ref::get_modified. -/
def get_modified (r : Ref C) : Bool := r.last_run_tick < r.last_modified_tick

end Ref

namespace RefMut

/-- query.rs RefMut::get_modified. -/
def get_modified (r : RefMut C) : Bool := r.last_run_tick < r.last_modified_tick

/-- query.rs RefMut deref_mut: stamps the slot last_modified_tick field with
the current tick and hands out the mutable borrow of the component; writing
the value v through that borrow leaves the view in the returned state. -/
def deref_mut (r : RefMut C) (v : C) : RefMut C :=
  { r with component := v, last_modified_tick := r.current_tick }

/-- query.rs RefMut::silently_modify: hands out the mutable borrow of the
component without touching last_modified_tick; writing v through it leaves
the view in the returned state. -/
def silently_modify (r : RefMut C) (v : C) : RefMut C :=
  { r with component := v }

end RefMut

/-- C3: a Ref or RefMut view reports get_modified true exactly when the
system last-run tick is strictly below the slot last-modified tick; writing
through the mutable dereference of a RefMut stamps the slot last-modified
tick with the current tick (whatever value is written); and silently_modify
writes the component without changing the last-modified tick (or anything
else besides the component). -/
theorem c3_change_detection (r : Ref C) (w : RefMut C) (v : C) :
    (r.get_modified = true ↔ r.last_run_tick < r.last_modified_tick) ∧
    (w.get_modified = true ↔ w.last_run_tick < w.last_modified_tick) ∧
    ((w.deref_mut v).last_modified_tick = w.current_tick ∧
      (w.deref_mut v).component = v ∧
      (w.deref_mut v).last_run_tick = w.last_run_tick ∧
      (w.deref_mut v).current_tick = w.current_tick) ∧
    (w.silently_modify v =
      { component := v, last_modified_tick := w.last_modified_tick,
        last_run_tick := w.last_run_tick, current_tick := w.current_tick }) := by
  refine ⟨by simp [Ref.get_modified], by simp [RefMut.get_modified], ⟨rfl, rfl, rfl, rfl⟩, rfl⟩

/-- resource_container.rs: a resource entry, the value together with its
last-modified tick. -/
structure ResourceContainer (V : Type) where
  resource : V
  last_modified_tick : Nat
deriving DecidableEq, Repr

/-- resource.rs: the read view over a resource (fields as in Res). -/
structure ResView (V : Type) where
  resource : V
  last_modified_tick : Nat
  last_run_tick : Nat
deriving DecidableEq, Repr

/-- resource.rs: the write view over a resource (fields as in ResMut). -/
structure ResMutView (V : Type) where
  resource : V
  last_modified_tick : Nat
  last_run_tick : Nat
  current_tick : Nat
deriving DecidableEq, Repr

/-- system.rs: the slice of the run state that resource parameters consult:
the type-id-keyed resource map, the current tick, and the last-run tick of
the running system (passed separately to construct).  Locks are always
uncontended in a conflict-free wave, so the try_read and try_write calls are
modelled as plain map lookups; the expect on a missing map entry is the
modelled panic. -/
structure ResRunState (V : Type) where
  resources : Nat → Option (ResourceContainer V)
  current_tick : Nat

/-- resource.rs: the Rust panic message of Res::lock on a missing resource. -/
def resPanicMsg : String := "Non-Option Res expects the resource to always exist"

/-- resource.rs: the Rust panic message of ResMut::lock on a missing
resource. -/
def resMutPanicMsg : String := "Non-Option ResMut expects the resource to always exist"

/-- resource.rs Res::lock for resource type id t: panics when the resource
map has no entry for t. -/
def resLock (t : Nat) (st : ResRunState V) : Except String (ResourceContainer V) :=
  match st.resources t with
  | some r => .ok r
  | none => .error resPanicMsg

/-- resource.rs the lock impl of the Option Res parameter: the question-mark
on the map lookup makes the whole lock None instead of panicking. -/
def optResLock (t : Nat) (st : ResRunState V) :
    Except String (Option (ResourceContainer V)) :=
  .ok (st.resources t)

/-- resource.rs ResMut::lock: panics when the resource map has no entry;
otherwise holds the write guard together with the current tick. -/
def resMutLock (t : Nat) (st : ResRunState V) :
    Except String (ResourceContainer V × Nat) :=
  match st.resources t with
  | some r => .ok (r, st.current_tick)
  | none => .error resMutPanicMsg

/-- resource.rs the lock impl of the Option ResMut parameter. -/
def optResMutLock (t : Nat) (st : ResRunState V) :
    Except String (Option (ResourceContainer V × Nat)) :=
  .ok ((st.resources t).map (fun r => (r, st.current_tick)))

/-- resource.rs Res::construct. -/
def resConstruct (g : ResourceContainer V) (last_run_tick : Nat) : ResView V :=
  ⟨g.resource, g.last_modified_tick, last_run_tick⟩

/-- resource.rs the construct impl of the Option Res parameter. -/
def optResConstruct (g : Option (ResourceContainer V)) (last_run_tick : Nat) :
    Option (ResView V) :=
  g.map (fun s => ⟨s.resource, s.last_modified_tick, last_run_tick⟩)

/-- resource.rs ResMut::construct. -/
def resMutConstruct (g : ResourceContainer V × Nat) (last_run_tick : Nat) :
    ResMutView V :=
  ⟨g.1.resource, g.1.last_modified_tick, last_run_tick, g.2⟩

/-- resource.rs the construct impl of the Option ResMut parameter. -/
def optResMutConstruct (g : Option (ResourceContainer V × Nat))
    (last_run_tick : Nat) : Option (ResMutView V) :=
  g.map (fun s => ⟨s.1.resource, s.1.last_modified_tick, last_run_tick, s.2⟩)

/-- system.rs: running a one-parameter system function amounts to locking the
parameter, constructing the view and invoking the user function on it; a
panic during lock acquisition aborts the run.  One definition per resource
parameter kind. -/
def runResSystem (t : Nat) (st : ResRunState V) (lrt : Nat)
    (f : ResView V → B) : Except String B :=
  (resLock t st).map (fun g => f (resConstruct g lrt))

/-- system.rs: running a system whose single parameter is an Option Res. -/
def runOptResSystem (t : Nat) (st : ResRunState V) (lrt : Nat)
    (f : Option (ResView V) → B) : Except String B :=
  (optResLock t st).map (fun g => f (optResConstruct g lrt))

/-- system.rs: running a system whose single parameter is a ResMut. -/
def runResMutSystem (t : Nat) (st : ResRunState V) (lrt : Nat)
    (f : ResMutView V → B) : Except String B :=
  (resMutLock t st).map (fun g => f (resMutConstruct g lrt))

/-- system.rs: running a system whose single parameter is an Option ResMut. -/
def runOptResMutSystem (t : Nat) (st : ResRunState V) (lrt : Nat)
    (f : Option (ResMutView V) → B) : Except String B :=
  (optResMutLock t st).map (fun g => f (optResMutConstruct g lrt))

/-- C10: when the resource map holds no resource of type id t, running a
system with a bare Res or ResMut parameter of that type panics during lock
acquisition (the run is the error value carrying the Rust expect message and
the user function is never invoked), whereas running the Option Res or
Option ResMut counterpart succeeds and invokes the user function on None. -/
theorem c10_missing_resource (t : Nat) (st : ResRunState V) (lrt : Nat)
    (f : ResView V → B) (g : Option (ResView V) → B)
    (f' : ResMutView V → B) (g' : Option (ResMutView V) → B)
    (hmiss : st.resources t = none) :
    runResSystem t st lrt f = .error resPanicMsg ∧
    runOptResSystem t st lrt g = .ok (g none) ∧
    runResMutSystem t st lrt f' = .error resMutPanicMsg ∧
    runOptResMutSystem t st lrt g' = .ok (g' none) := by
  refine ⟨?_, ?_, ?_, ?_⟩ <;>
    simp [runResSystem, runOptResSystem, runResMutSystem, runOptResMutSystem,
      resLock, optResLock, resMutLock, optResMutLock, hmiss,
      optResConstruct, optResMutConstruct, Except.map]

/-- Witness for C10 at a concrete state: an empty resource map over Nat
values, type id 0, the user functions merely reporting whether the parameter
arrived as None. -/
theorem c10_missing_resource_witness :
    (let st : ResRunState Nat := ⟨fun _ => none, 7⟩
     st.resources 0 = none ∧
     (runResSystem 0 st 3 (fun v => v.resource) = .error resPanicMsg ∧
      runOptResSystem 0 st 3 (fun o => o.isNone) = .ok true ∧
      runResMutSystem 0 st 3 (fun v => v.resource) = .error resMutPanicMsg ∧
      runOptResMutSystem 0 st 3 (fun o => o.isNone) = .ok true)) := by
  refine ⟨rfl, ?_⟩
  have h := c10_missing_resource (V := Nat) (B := Nat) 0 ⟨fun _ => none, 7⟩ 3
    (fun v => v.resource) (fun o => if o.isNone then 1 else 0)
    (fun v => v.resource) (fun o => if o.isNone then 1 else 0) rfl
  exact ⟨h.1, rfl, h.2.2.1, rfl⟩

/-- system.rs BorrowType: Shared is Immutable, Exclusive is Mutable. -/
inductive BorrowType where
  | Immutable
  | Mutable
deriving DecidableEq, Repr

/-- system.rs Borrow: a borrow descriptor with the type id, the static type
name used in diagnostics, and the mode. -/
structure Borrow where
  id : Nat
  name : String
  borrow_type : BorrowType
deriving DecidableEq, Repr

/-- A HashMap from type id to borrow descriptor is modelled as an association
list consulted through List.lookup. -/
abbrev TMap := List (Nat × Borrow)

theorem lookup_cons_eqn (a : Nat) (p : Nat × Borrow) (ps : TMap) :
    List.lookup a (p :: ps) = if a = p.1 then some p.2 else List.lookup a ps := by
  rcases p with ⟨k, v⟩
  by_cases h : a = k
  · rw [List.lookup_cons, show (a == k) = true from beq_iff_eq.2 h, if_pos h]
  · rw [List.lookup_cons, show (a == k) = false from beq_eq_false_iff_ne.2 h,
      if_neg h]

/-- HashMap::insert modelled on the association list: the new binding shadows
and removes any previous binding of the same key. -/
def mapInsert (m : TMap) (k : Nat) (v : Borrow) : TMap :=
  (k, v) :: List.filter (fun p => p.1 != k) m

/-- system_set.rs: the first panic diagnostic of check_system, for a type that
has already been mutably borrowed. -/
def alreadyMutMsg (kind name : String) : String :=
  "tried to borrow " ++ kind ++ " `" ++ name ++
    "`, but it has already been mutably borrowed"

/-- system_set.rs: the second panic diagnostic of check_system, for a mutable
borrow of a type that has already been borrowed. -/
def asMutMsg (kind name : String) : String :=
  "tried to borrow " ++ kind ++ " `" ++ name ++
    "` as mutable, but it has already been borrowed"

/-- system_set.rs: one of the two duplicate-declaration loops of
check_system.  Each declared borrow is inserted into the seen map; when the
insert reports a previous binding of the same type id, the loop panics unless
both the old and the new borrow are Immutable.  The panic is modelled as the
error value carrying the diagnostic string. -/
def checkBorrows (kind : String) : List Borrow → TMap → Except String TMap
  | [], seen => .ok seen
  | b :: rest, seen =>
    let old := List.lookup b.id seen
    let seen' := mapInsert seen b.id b
    match old with
    | some old_borrow =>
      if old_borrow.borrow_type = .Mutable then .error (alreadyMutMsg kind b.name)
      else if b.borrow_type = .Mutable then .error (asMutMsg kind b.name)
      else checkBorrows kind rest seen'
    | none => checkBorrows kind rest seen'

/-- system_set.rs SystemSet::check_system: validate the resource declarations,
then the component declarations, and return the two seen maps. -/
def check_system (resDecls compDecls : List Borrow) :
    Except String (TMap × TMap) := do
  let rs ← checkBorrows "resource" resDecls []
  let cs ← checkBorrows "component" compDecls []
  pure (rs, cs)

/-- The duplicate condition that checkBorrows actually tolerates: any two
declarations of the same type id are both Immutable. -/
def benignDups (ds : List Borrow) : Prop :=
  List.Pairwise
    (fun a b => a.id = b.id →
      a.borrow_type = BorrowType.Immutable ∧
        b.borrow_type = BorrowType.Immutable) ds

instance (ds : List Borrow) : Decidable (benignDups ds) := by
  unfold benignDups
  infer_instance

/-- Looking a key up after filtering away bindings of a different key is the
same as looking it up in the original association list. -/
theorem lookup_filter_ne (x k : Nat) (l : TMap) (hx : x ≠ k) :
    List.lookup x (List.filter (fun p => p.1 != k) l) = List.lookup x l := by
  induction l with
  | nil => rfl
  | cons p ps ih =>
    rcases p with ⟨a, v⟩
    by_cases hp : a = k
    · subst hp
      have hxa : (x == a) = false := by simp [hx]
      simp [List.filter_cons, List.lookup, hxa, ih]
    · have ha : (a != k) = true := by simp [hp]
      simp only [List.filter_cons, ha, if_true]
      cases hxa : (x == a) <;> simp [List.lookup, hxa, ih]

/-- Lookup after the modelled HashMap::insert. -/
theorem lookup_mapInsert (x k : Nat) (v : Borrow) (m : TMap) :
    List.lookup x (mapInsert m k v) =
      if x = k then some v else List.lookup x m := by
  by_cases hx : x = k
  · simp [mapInsert, hx, List.lookup]
  · have hxk : (x == k) = false := by simp [hx]
    simp [mapInsert, List.lookup, hxk, hx, lookup_filter_ne x k m hx]

/-- Generalisation of the success characterisation of checkBorrows over a
partially filled seen map. -/
theorem checkBorrows_ok_iff (kind : String) :
    ∀ (ds : List Borrow) (seen : TMap),
      (∃ m, checkBorrows kind ds seen = .ok m) ↔
        (benignDups ds ∧
          ∀ b ∈ ds, ∀ v, List.lookup b.id seen = some v →
            v.borrow_type = BorrowType.Immutable ∧
              b.borrow_type = BorrowType.Immutable) := by
  intro ds
  induction ds with
  | nil =>
    intro seen
    simp [checkBorrows, benignDups]
  | cons b rest ih =>
    intro seen
    rcases hold : List.lookup b.id seen with _ | oldb
    · -- no previous binding for the head: insert and continue
      have hstep : checkBorrows kind (b :: rest) seen =
          checkBorrows kind rest (mapInsert seen b.id b) := by
        simp only [checkBorrows, hold]
      rw [hstep, ih (mapInsert seen b.id b)]
      constructor
      · rintro ⟨hbd, hseen⟩
        refine ⟨?_, ?_⟩
        · simp only [benignDups, List.pairwise_cons]
          refine ⟨?_, hbd⟩
          intro x hx hid
          exact hseen x hx b (by rw [lookup_mapInsert, if_pos hid.symm])
        · intro x hx v hv
          rcases List.mem_cons.1 hx with rfl | hx'
          · rw [hold] at hv; cases hv
          · by_cases hxb : x.id = b.id
            · rw [hxb, hold] at hv; cases hv
            · refine hseen x hx' v ?_
              rw [lookup_mapInsert, if_neg hxb]; exact hv
      · rintro ⟨hbd, hseen⟩
        simp only [benignDups, List.pairwise_cons] at hbd
        refine ⟨hbd.2, ?_⟩
        intro x hx v hv
        rw [lookup_mapInsert] at hv
        by_cases hxb : x.id = b.id
        · rw [if_pos hxb] at hv
          cases hv
          exact hbd.1 x hx hxb.symm
        · rw [if_neg hxb] at hv
          exact hseen x (List.mem_cons_of_mem _ hx) v hv
    · -- a previous binding exists: panic unless both are Immutable
      by_cases hob : oldb.borrow_type = BorrowType.Mutable
      · have hstep : checkBorrows kind (b :: rest) seen =
            .error (alreadyMutMsg kind b.name) := by
          simp only [checkBorrows, hold, hob, if_pos]
        rw [hstep]
        constructor
        · rintro ⟨m, hm⟩; cases hm
        · rintro ⟨-, hseen⟩
          have := (hseen b (List.mem_cons_self _ _) oldb hold).1
          rw [hob] at this
          exact BorrowType.noConfusion this
      · by_cases hbb : b.borrow_type = BorrowType.Mutable
        · have hstep : checkBorrows kind (b :: rest) seen =
              .error (asMutMsg kind b.name) := by
            simp only [checkBorrows, hold, hob, hbb, if_neg, if_pos,
              ite_false, ite_true]
          rw [hstep]
          constructor
          · rintro ⟨m, hm⟩; cases hm
          · rintro ⟨-, hseen⟩
            have := (hseen b (List.mem_cons_self _ _) oldb hold).2
            rw [hbb] at this
            exact BorrowType.noConfusion this
        · have himo : oldb.borrow_type = BorrowType.Immutable := by
            cases h' : oldb.borrow_type
            · rfl
            · exact absurd h' hob
          have himb : b.borrow_type = BorrowType.Immutable := by
            cases h' : b.borrow_type
            · rfl
            · exact absurd h' hbb
          have hstep : checkBorrows kind (b :: rest) seen =
              checkBorrows kind rest (mapInsert seen b.id b) := by
            simp only [checkBorrows, hold, hob, hbb, ite_false, if_neg]
          rw [hstep, ih (mapInsert seen b.id b)]
          constructor
          · rintro ⟨hbd, hseen⟩
            refine ⟨?_, ?_⟩
            · simp only [benignDups, List.pairwise_cons]
              refine ⟨?_, hbd⟩
              intro x hx hid
              exact hseen x hx b (by rw [lookup_mapInsert, if_pos hid.symm])
            · intro x hx v hv
              rcases List.mem_cons.1 hx with rfl | hx'
              · rw [hold] at hv
                cases hv
                exact ⟨himo, himb⟩
              · by_cases hxb : x.id = b.id
                · have hx2 := (hseen x hx' b
                    (by rw [lookup_mapInsert, if_pos hxb])).2
                  rw [hxb, hold] at hv
                  cases hv
                  exact ⟨himo, hx2⟩
                · refine hseen x hx' v ?_
                  rw [lookup_mapInsert, if_neg hxb]; exact hv
          · rintro ⟨hbd, hseen⟩
            simp only [benignDups, List.pairwise_cons] at hbd
            refine ⟨hbd.2, ?_⟩
            intro x hx v hv
            rw [lookup_mapInsert] at hv
            by_cases hxb : x.id = b.id
            · rw [if_pos hxb] at hv
              cases hv
              exact hbd.1 x hx hxb.symm
            · rw [if_neg hxb] at hv
              exact hseen x (List.mem_cons_of_mem _ hx) v hv

/-- On a panic, the diagnostic of checkBorrows names one of the declared
borrows. -/
theorem checkBorrows_error_names (kind : String) :
    ∀ (ds : List Borrow) (seen : TMap) (msg : String),
      checkBorrows kind ds seen = .error msg →
        ∃ b ∈ ds, msg = alreadyMutMsg kind b.name ∨ msg = asMutMsg kind b.name := by
  intro ds
  induction ds with
  | nil =>
    intro seen msg h
    cases h
  | cons b rest ih =>
    intro seen msg h
    rcases hold : List.lookup b.id seen with _ | oldb
    · rw [show checkBorrows kind (b :: rest) seen =
          checkBorrows kind rest (mapInsert seen b.id b) from by
        simp only [checkBorrows, hold]] at h
      rcases ih _ _ h with ⟨x, hx, hmsg⟩
      exact ⟨x, List.mem_cons_of_mem _ hx, hmsg⟩
    · by_cases hob : oldb.borrow_type = BorrowType.Mutable
      · rw [show checkBorrows kind (b :: rest) seen =
            .error (alreadyMutMsg kind b.name) from by
          simp only [checkBorrows, hold, hob, if_pos]] at h
        cases h
        exact ⟨b, List.mem_cons_self _ _, Or.inl rfl⟩
      · by_cases hbb : b.borrow_type = BorrowType.Mutable
        · rw [show checkBorrows kind (b :: rest) seen =
              .error (asMutMsg kind b.name) from by
            simp only [checkBorrows, hold, hob, hbb, ite_false, ite_true,
              if_neg, if_pos]] at h
          cases h
          exact ⟨b, List.mem_cons_self _ _, Or.inr rfl⟩
        · rw [show checkBorrows kind (b :: rest) seen =
              checkBorrows kind rest (mapInsert seen b.id b) from by
            simp only [checkBorrows, hold, hob, hbb, ite_false, if_neg]] at h
          rcases ih _ _ h with ⟨x, hx, hmsg⟩
          exact ⟨x, List.mem_cons_of_mem _ hx, hmsg⟩

/-- C7 counterexample: the claim states that a parameter list declaring the
same resource type twice Exclusive is accepted without panicking.  The code
panics: registering the duplicate Exclusive declarations of type id 0 named R
makes check_system raise the already-mutably-borrowed diagnostic, although
the two declarations carry the same mode and only a Shared-Exclusive mix was
supposed to panic. -/
theorem c7_counterexample :
    checkBorrows "resource"
        [⟨0, "R", BorrowType.Mutable⟩, ⟨0, "R", BorrowType.Mutable⟩] [] =
      .error (alreadyMutMsg "resource" "R") ∧
    check_system [⟨0, "R", BorrowType.Mutable⟩, ⟨0, "R", BorrowType.Mutable⟩] []
      = .error (alreadyMutMsg "resource" "R") := by
  exact ⟨rfl, rfl⟩

/-- C7 amended: at system registration a parameter list is accepted without
panicking iff every two declarations of the same type id are both Shared;
any repetition of a type in which either occurrence is Exclusive (including
Exclusive twice) panics, and the panic diagnostic names a declared type. -/
theorem c7_check_amended (ds : List Borrow) (kind : String) :
    ((∃ m, checkBorrows kind ds [] = .ok m) ↔ benignDups ds) ∧
    (∀ msg, checkBorrows kind ds [] = .error msg →
      ∃ b ∈ ds, msg = alreadyMutMsg kind b.name ∨ msg = asMutMsg kind b.name) := by
  constructor
  · rw [checkBorrows_ok_iff kind ds []]
    simp
  · exact checkBorrows_error_names kind ds []

/-- Shorthand for the slot sequence of a component table. -/
abbrev CompList (C : Type) := List (Option (ComponentSlot C))

/-- component_container.rs: the write view constructed by the revision of
get_many_mut under scrutiny; it carries the two borrows into the slot (the
component and its last-modified tick) plus the current tick. -/
structure CRefMut (C : Type) where
  component : C
  last_modified_tick : Nat
  current_tick : Nat
deriving DecidableEq, Repr

/-- component_container.rs: the first pass of get_many_mut.  Walking the
input handles in order, each handle whose id is in range and whose generation
matches the stored slot generation gets its slot generation marked by setting
the low bit; the walk stops at the first failing handle.  The result is the
number of handles that passed together with the marked slot sequence. -/
def markValid : List Entity → CompList C → Nat × CompList C
  | [], comps => (0, comps)
  | e :: rest, comps =>
    match comps[e.id]? with
    | some (some s) =>
      if s.generation = e.generation then
        let comps1 := comps.set e.id
          (some ⟨setLowBit s.generation, s.component, s.last_modified_tick⟩)
        let r := markValid rest comps1
        (r.1 + 1, r.2)
      else (0, comps)
    | _ => (0, comps)

/-- component_container.rs: one step of the second pass of get_many_mut,
clearing the low bit of the slot generation at one id (the source uses an
unchecked unwrap because the slot is always present there; the function is
total here and leaves absent slots alone). -/
def clearAt (comps : CompList C) (id : Nat) : CompList C :=
  match comps[id]? with
  | some (some s) =>
    comps.set id (some ⟨clearLowBit s.generation, s.component, s.last_modified_tick⟩)
  | _ => comps

/-- component_container.rs: the second pass of get_many_mut, clearing the
marks of the accepted prefix of the input handles. -/
def clearMarks (comps : CompList C) (es : List Entity) : CompList C :=
  es.foldl (fun cs e => clearAt cs e.id) comps

/-- component_container.rs ComponentContainer::get_many_mut: mark pass, clear
pass, and only when every handle passed, the third pass that builds the write
views in input order (the unchecked unwrap of the third pass is modelled with
a default value on the impossible branch). -/
def get_many_mut [Inhabited C] (cont : ComponentContainer C)
    (current_tick : Nat) (entities : List Entity) :
    Option (List (CRefMut C)) × ComponentContainer C :=
  let r := markValid entities cont.components
  let cleared := clearMarks r.2 (entities.take r.1)
  if r.1 = entities.length then
    (some (entities.map fun e =>
      match cleared[e.id]? with
      | some (some s) => ⟨s.component, s.last_modified_tick, current_tick⟩
      | _ => ⟨default, 0, current_tick⟩), ⟨cleared⟩)
  else
    (none, ⟨cleared⟩)

/-- Claim side of C1: the handle id is in range and its generation matches
the stored slot generation. -/
def validSlotFor (comps : CompList C) (e : Entity) : Bool :=
  match comps[e.id]? with
  | some (some s) => s.generation = e.generation
  | _ => false

/-- Claim side of C1: the (id, generation) pairs of the input are pairwise
distinct. -/
def distinctHandles (es : List Entity) : Prop :=
  List.Pairwise (fun a b => ¬(a.id = b.id ∧ a.generation = b.generation)) es

instance (es : List Entity) : Decidable (distinctHandles es) := by
  unfold distinctHandles
  infer_instance

/-- Claim side of C1: the success condition stated by the claim. -/
def manyMutOk (cont : ComponentContainer C) (es : List Entity) : Prop :=
  (∀ e ∈ es, validSlotFor cont.components e = true) ∧ distinctHandles es

instance (cont : ComponentContainer C) (es : List Entity) :
    Decidable (manyMutOk cont es) := by
  unfold manyMutOk
  infer_instance

/-- Claim side of C1: the write view over the slot of one input handle. -/
def viewOf [Inhabited C] (cont : ComponentContainer C) (current_tick : Nat)
    (e : Entity) : CRefMut C :=
  match cont.components[e.id]? with
  | some (some s) => ⟨s.component, s.last_modified_tick, current_tick⟩
  | _ => ⟨default, 0, current_tick⟩

/-- C1 counterexample: the claim states that get_many_mut succeeds iff every
handle generation matches its stored slot generation and the pairs are
pairwise distinct.  Over a table whose slot 0 stores generation 2, the input
pair (0, 2), (0, 3) refutes the only-if direction: the second handle does not
match the stored generation 2, yet the call succeeds, because the first pass
marks the slot generation to 3 and the second handle then matches the mark,
so both returned views alias slot 0. -/
theorem c1_counterexample :
    (let cont : ComponentContainer Nat := ⟨[some ⟨2, 5, 0⟩]⟩
     let es : List Entity := [⟨0, 2⟩, ⟨0, 3⟩]
     (get_many_mut cont 7 es).1 =
        some [⟨5, 0, 7⟩, ⟨5, 0, 7⟩] ∧ ¬ manyMutOk cont es) := by
  decide

/-- Proof-side view of one marking step: the slot at one id gets its low bit
set (total version of one iteration of the first pass). -/
def markAt (comps : CompList C) (id : Nat) : CompList C :=
  match comps[id]? with
  | some (some s) =>
    comps.set id (some ⟨setLowBit s.generation, s.component, s.last_modified_tick⟩)
  | _ => comps

/-- Proof-side view of the whole first pass: marking a list of ids in order. -/
def applyMarks (comps : CompList C) (ids : List Nat) : CompList C :=
  ids.foldl markAt comps

/-- The slot at an id is present and carries an even (alive) generation. -/
def slotEvenAt (comps : CompList C) (id : Nat) : Prop :=
  ∃ s, comps[id]? = some (some s) ∧ s.generation % 2 = 0

theorem set_getElem?_self {α : Type _} (l : List α) (i : Nat) (a : α)
    (h : l[i]? = some a) : l.set i a = l := by
  apply List.ext_getElem?
  intro n
  rw [List.getElem?_set]
  by_cases hn : i = n
  · subst hn
    simp [h, (List.getElem?_eq_some.1 h).1]
  · simp [hn]

theorem markAt_getElem?_ne (comps : CompList C) (id j : Nat) (h : j ≠ id) :
    (markAt comps id)[j]? = comps[j]? := by
  unfold markAt
  cases hc : comps[id]? with
  | none => rfl
  | some o =>
    cases o with
    | none => rfl
    | some s =>
      rw [List.getElem?_set, if_neg (fun hh => h hh.symm)]

theorem markAt_getElem?_self (comps : CompList C) (id : Nat)
    (s : ComponentSlot C) (h : comps[id]? = some (some s)) :
    (markAt comps id)[id]? =
      some (some ⟨setLowBit s.generation, s.component, s.last_modified_tick⟩) := by
  have hlt : id < comps.length := (List.getElem?_eq_some.1 h).1
  unfold markAt
  rw [h, List.getElem?_set, if_pos rfl, if_pos hlt]

theorem clearAt_getElem?_ne (comps : CompList C) (id j : Nat) (h : j ≠ id) :
    (clearAt comps id)[j]? = comps[j]? := by
  unfold clearAt
  cases hc : comps[id]? with
  | none => rfl
  | some o =>
    cases o with
    | none => rfl
    | some s =>
      rw [List.getElem?_set, if_neg (fun hh => h hh.symm)]

theorem applyMarks_nil (comps : CompList C) : applyMarks comps [] = comps := rfl

theorem applyMarks_cons (comps : CompList C) (a : Nat) (ids : List Nat) :
    applyMarks comps (a :: ids) = applyMarks (markAt comps a) ids := rfl

theorem applyMarks_append (comps : CompList C) (l l' : List Nat) :
    applyMarks comps (l ++ l') = applyMarks (applyMarks comps l) l' :=
  List.foldl_append _ _ _ _

theorem applyMarks_getElem?_notMem (ids : List Nat) :
    ∀ (comps : CompList C) (id : Nat), id ∉ ids →
      (applyMarks comps ids)[id]? = comps[id]? := by
  induction ids with
  | nil => intro comps id _; rfl
  | cons a as ih =>
    intro comps id h
    have hne : id ≠ a := fun hh => h (hh ▸ List.mem_cons_self a as)
    have hnotin : id ∉ as := fun hh => h (List.mem_cons_of_mem a hh)
    rw [applyMarks_cons, ih _ _ hnotin, markAt_getElem?_ne _ _ _ hne]

theorem applyMarks_getElem?_mem (ids : List Nat) :
    ∀ (comps : CompList C) (id : Nat) (s : ComponentSlot C),
      ids.Nodup → id ∈ ids → comps[id]? = some (some s) →
      (applyMarks comps ids)[id]? =
        some (some ⟨setLowBit s.generation, s.component, s.last_modified_tick⟩) := by
  induction ids with
  | nil => intro _ _ _ _ hmem _; cases hmem
  | cons a as ih =>
    intro comps id s hnd hmem h
    rcases List.mem_cons.1 hmem with rfl | hmem'
    · have hnotin : id ∉ as := (List.nodup_cons.1 hnd).1
      rw [applyMarks_cons, applyMarks_getElem?_notMem _ _ _ hnotin,
        markAt_getElem?_self _ _ _ h]
    · have hne : id ≠ a := fun hh => (List.nodup_cons.1 hnd).1 (hh ▸ hmem')
      rw [applyMarks_cons]
      exact ih _ _ _ (List.nodup_cons.1 hnd).2 hmem'
        (by rw [markAt_getElem?_ne _ _ _ hne]; exact h)

theorem clearAt_markAt_comm (comps : CompList C) (a b : Nat) (h : a ≠ b) :
    clearAt (markAt comps b) a = markAt (clearAt comps a) b := by
  have hab : (markAt comps b)[a]? = comps[a]? := markAt_getElem?_ne _ _ _ h
  cases hca : comps[a]? with
  | none =>
    have h1 : clearAt (markAt comps b) a = markAt comps b := by
      unfold clearAt; rw [hab, hca]
    have h2 : clearAt comps a = comps := by
      unfold clearAt; rw [hca]
    rw [h1, h2]
  | some o =>
    cases o with
    | none =>
      have h1 : clearAt (markAt comps b) a = markAt comps b := by
        unfold clearAt; rw [hab, hca]
      have h2 : clearAt comps a = comps := by
        unfold clearAt; rw [hca]
      rw [h1, h2]
    | some sa =>
      have h1 : clearAt (markAt comps b) a = (markAt comps b).set a
          (some ⟨clearLowBit sa.generation, sa.component, sa.last_modified_tick⟩) := by
        unfold clearAt; rw [hab, hca]
      have h2 : clearAt comps a = comps.set a
          (some ⟨clearLowBit sa.generation, sa.component, sa.last_modified_tick⟩) := by
        unfold clearAt; rw [hca]
      have hcb' : (comps.set a
          (some ⟨clearLowBit sa.generation, sa.component, sa.last_modified_tick⟩))[b]? =
            comps[b]? := by
        rw [List.getElem?_set, if_neg h]
      cases hcb : comps[b]? with
      | none =>
        have h3 : markAt comps b = comps := by unfold markAt; rw [hcb]
        have h4 : markAt (comps.set a
            (some ⟨clearLowBit sa.generation, sa.component, sa.last_modified_tick⟩)) b =
              comps.set a
                (some ⟨clearLowBit sa.generation, sa.component, sa.last_modified_tick⟩) := by
          unfold markAt; rw [hcb', hcb]
        rw [h1, h3, h2, h4]
      | some ob =>
        cases ob with
        | none =>
          have h3 : markAt comps b = comps := by unfold markAt; rw [hcb]
          have h4 : markAt (comps.set a
              (some ⟨clearLowBit sa.generation, sa.component, sa.last_modified_tick⟩)) b =
                comps.set a
                  (some ⟨clearLowBit sa.generation, sa.component, sa.last_modified_tick⟩) := by
            unfold markAt; rw [hcb', hcb]
          rw [h1, h3, h2, h4]
        | some sb =>
          have h3 : markAt comps b = comps.set b
              (some ⟨setLowBit sb.generation, sb.component, sb.last_modified_tick⟩) := by
            unfold markAt; rw [hcb]
          have h4 : markAt (comps.set a
              (some ⟨clearLowBit sa.generation, sa.component, sa.last_modified_tick⟩)) b =
                (comps.set a
                  (some ⟨clearLowBit sa.generation, sa.component, sa.last_modified_tick⟩)).set b
                  (some ⟨setLowBit sb.generation, sb.component, sb.last_modified_tick⟩) := by
            unfold markAt; rw [hcb', hcb]
          rw [h1, h3, h2, h4]
          exact List.set_comm _ _ _ (fun hh => h hh.symm)

theorem clearAt_applyMarks_comm (ids : List Nat) :
    ∀ (comps : CompList C) (id : Nat), id ∉ ids →
      clearAt (applyMarks comps ids) id = applyMarks (clearAt comps id) ids := by
  induction ids with
  | nil => intro comps id _; rfl
  | cons a as ih =>
    intro comps id h
    have hne : id ≠ a := fun hh => h (hh ▸ List.mem_cons_self a as)
    have hnotin : id ∉ as := fun hh => h (List.mem_cons_of_mem a hh)
    rw [applyMarks_cons, ih _ _ hnotin, clearAt_markAt_comm _ _ _ hne,
      applyMarks_cons]

theorem clearAt_markAt_self (comps : CompList C) (id : Nat)
    (s : ComponentSlot C) (h : comps[id]? = some (some s))
    (hev : s.generation % 2 = 0) :
    clearAt (markAt comps id) id = comps := by
  have hm := markAt_getElem?_self comps id s h
  have hgen : clearLowBit (setLowBit s.generation) = s.generation := by
    simp only [setLowBit, clearLowBit, if_pos hev]
    have : (s.generation + 1) % 2 ≠ 0 := by omega
    rw [if_neg this]
    omega
  have hstep : clearAt (markAt comps id) id = (markAt comps id).set id
      (some ⟨clearLowBit (setLowBit s.generation), s.component,
        s.last_modified_tick⟩) := by
    unfold clearAt
    rw [hm]
  rw [hstep, hgen]
  have hmdef : markAt comps id = comps.set id
      (some ⟨setLowBit s.generation, s.component, s.last_modified_tick⟩) := by
    unfold markAt; rw [h]
  rw [hmdef, List.set_set]
  exact set_getElem?_self _ _ _ h

theorem clearMarks_applyMarks (ps : List Entity) :
    ∀ (comps : CompList C),
      (ps.map Entity.id).Nodup →
      (∀ e ∈ ps, slotEvenAt comps e.id) →
      clearMarks (applyMarks comps (ps.map Entity.id)) ps = comps := by
  induction ps with
  | nil => intro comps _ _; rfl
  | cons a ps' ih =>
    intro comps hnd hev
    obtain ⟨s, hs, hsev⟩ := hev a (List.mem_cons_self a ps')
    have hnotin : a.id ∉ ps'.map Entity.id := (List.nodup_cons.1 hnd).1
    have hstep : clearMarks (applyMarks comps ((a :: ps').map Entity.id)) (a :: ps')
        = clearMarks
            (clearAt (applyMarks (markAt comps a.id) (ps'.map Entity.id)) a.id)
            ps' := by
      rfl
    rw [hstep, clearAt_applyMarks_comm _ _ _ hnotin,
      clearAt_markAt_self _ _ _ hs hsev]
    exact ih comps (List.nodup_cons.1 hnd).2
      (fun e he => hev e (List.mem_cons_of_mem a he))

/-- Main specification of the first pass of get_many_mut under the evenness
hypothesis: relative to a state in which the ids of seen are already marked,
the pass accepts a prefix of valid handles with fresh distinct ids, leaves
the marks of seen plus that prefix, and accepts everything exactly when all
handles are valid with ids that are distinct and disjoint from seen. -/
theorem markValid_spec (comps0 : CompList C) (es : List Entity) :
    ∀ (seen : List Nat) (i : Nat) (comps' : CompList C),
      (∀ e ∈ es, e.generation % 2 = 0) →
      (∀ id ∈ seen, slotEvenAt comps0 id) →
      seen.Nodup →
      markValid es (applyMarks comps0 seen) = (i, comps') →
      (comps' = applyMarks comps0 (seen ++ (es.take i).map Entity.id) ∧
        ((es.take i).map Entity.id).Nodup ∧
        (∀ id ∈ (es.take i).map Entity.id, id ∉ seen ∧ slotEvenAt comps0 id) ∧
        (∀ e ∈ es.take i, validSlotFor comps0 e = true)) ∧
      (i = es.length ↔
        ((∀ e ∈ es, validSlotFor comps0 e = true ∧ e.id ∉ seen) ∧
          (es.map Entity.id).Nodup)) := by
  induction es with
  | nil =>
    intro seen i comps' _ _ _ hrun
    rw [markValid] at hrun
    cases hrun
    simp
  | cons e rest ih =>
    intro seen i comps' hev hseen hnd hrun
    have hevE : e.generation % 2 = 0 := hev e (List.mem_cons_self e rest)
    by_cases hmem : e.id ∈ seen
    · -- the slot is already marked: the odd mark cannot match the even handle
      obtain ⟨s, hs, hsev⟩ := hseen e.id hmem
      have hS : (applyMarks comps0 seen)[e.id]? =
          some (some ⟨setLowBit s.generation, s.component, s.last_modified_tick⟩) :=
        applyMarks_getElem?_mem seen comps0 e.id s hnd hmem hs
      have hne : setLowBit s.generation ≠ e.generation := by
        simp only [setLowBit, if_pos hsev]
        omega
      have hstop : markValid (e :: rest) (applyMarks comps0 seen) =
          (0, applyMarks comps0 seen) := by
        simp only [markValid, hS]
        rw [if_neg hne]
      rw [hstop] at hrun
      cases hrun
      refine ⟨⟨by simp, by simp, by simp, by simp⟩, ?_⟩
      constructor
      · intro h0; cases h0
      · rintro ⟨hall, -⟩
        exact absurd hmem (hall e (List.mem_cons_self e rest)).2
    · -- the slot is unmarked, so the pass consults the original table
      have hS : (applyMarks comps0 seen)[e.id]? = comps0[e.id]? :=
        applyMarks_getElem?_notMem seen _ _ hmem
      cases hc : comps0[e.id]? with
      | none =>
        have hstop : markValid (e :: rest) (applyMarks comps0 seen) =
            (0, applyMarks comps0 seen) := by
          simp only [markValid, hS, hc]
        rw [hstop] at hrun
        cases hrun
        have hbad : validSlotFor comps0 e = false := by
          simp [validSlotFor, hc]
        refine ⟨⟨by simp, by simp, by simp, by simp⟩, ?_⟩
        constructor
        · intro h0; cases h0
        · rintro ⟨hall, -⟩
          have := (hall e (List.mem_cons_self e rest)).1
          rw [hbad] at this
          cases this
      | some o =>
        cases o with
        | none =>
          have hstop : markValid (e :: rest) (applyMarks comps0 seen) =
              (0, applyMarks comps0 seen) := by
            simp only [markValid, hS, hc]
          rw [hstop] at hrun
          cases hrun
          have hbad : validSlotFor comps0 e = false := by
            simp [validSlotFor, hc]
          refine ⟨⟨by simp, by simp, by simp, by simp⟩, ?_⟩
          constructor
          · intro h0; cases h0
          · rintro ⟨hall, -⟩
            have := (hall e (List.mem_cons_self e rest)).1
            rw [hbad] at this
            cases this
        | some s =>
          by_cases hgen : s.generation = e.generation
          · -- the handle is accepted and its slot gets marked
            have hsev : s.generation % 2 = 0 := by rw [hgen]; exact hevE
            have hmark : (applyMarks comps0 seen).set e.id
                (some ⟨setLowBit s.generation, s.component, s.last_modified_tick⟩) =
                  applyMarks comps0 (seen ++ [e.id]) := by
              rw [applyMarks_append]
              have : applyMarks (applyMarks comps0 seen) [e.id] =
                  markAt (applyMarks comps0 seen) e.id := rfl
              rw [this]
              unfold markAt
              rw [hS, hc]
            have hstep : markValid (e :: rest) (applyMarks comps0 seen) =
                ((markValid rest (applyMarks comps0 (seen ++ [e.id]))).1 + 1,
                  (markValid rest (applyMarks comps0 (seen ++ [e.id]))).2) := by
              simp only [markValid, hS, hc]
              rw [if_pos hgen]
              show ((markValid rest ((applyMarks comps0 seen).set e.id
                  (some ⟨setLowBit s.generation, s.component,
                    s.last_modified_tick⟩))).1 + 1,
                (markValid rest ((applyMarks comps0 seen).set e.id
                  (some ⟨setLowBit s.generation, s.component,
                    s.last_modified_tick⟩))).2) = _
              rw [hmark]
            rw [hstep] at hrun
            have hseen' : ∀ id ∈ seen ++ [e.id], slotEvenAt comps0 id := by
              intro id hid
              rcases List.mem_append.1 hid with hid | hid
              · exact hseen id hid
              · rcases List.mem_singleton.1 hid with rfl
                exact ⟨s, hc, hsev⟩
            have hnd' : (seen ++ [e.id]).Nodup := by
              rw [List.nodup_append]
              exact ⟨hnd, List.nodup_singleton _,
                fun a ha hb => hmem ((List.mem_singleton.1 hb) ▸ ha)⟩
            have hih := ih (seen ++ [e.id])
              (markValid rest (applyMarks comps0 (seen ++ [e.id]))).1
              (markValid rest (applyMarks comps0 (seen ++ [e.id]))).2
              (fun x hx => hev x (List.mem_cons_of_mem e hx)) hseen' hnd' rfl
            have hvalidE : validSlotFor comps0 e = true := by
              simp [validSlotFor, hc, hgen]
            obtain ⟨⟨ih1, ih2, ih3, ih4⟩, ih5⟩ := hih
            have hi : i = (markValid rest (applyMarks comps0 (seen ++ [e.id]))).1 + 1 := by
              cases hrun; rfl
            have hcomps' :
                comps' = (markValid rest (applyMarks comps0 (seen ++ [e.id]))).2 := by
              cases hrun; rfl
            subst hi
            subst hcomps'
            rw [List.take_succ_cons]
            refine ⟨⟨?_, ?_, ?_, ?_⟩, ?_⟩
            · rw [ih1, List.map_cons]
              rw [show seen ++ e.id ::
                  ((rest.take (markValid rest
                    (applyMarks comps0 (seen ++ [e.id]))).1).map Entity.id) =
                  (seen ++ [e.id]) ++
                  ((rest.take (markValid rest
                    (applyMarks comps0 (seen ++ [e.id]))).1).map Entity.id) from by
                simp]
            · rw [List.map_cons, List.nodup_cons]
              refine ⟨?_, ih2⟩
              intro hmm
              exact (ih3 e.id hmm).1 (List.mem_append.2 (Or.inr (List.mem_singleton.2 rfl)))
            · rw [List.map_cons]
              intro id hid
              rcases List.mem_cons.1 hid with rfl | hid'
              · exact ⟨hmem, ⟨s, hc, hsev⟩⟩
              · have := ih3 id hid'
                exact ⟨fun hh => this.1 (List.mem_append.2 (Or.inl hh)), this.2⟩
            · intro x hx
              rcases List.mem_cons.1 hx with rfl | hx'
              · exact hvalidE
              · exact ih4 x hx'
            · rw [List.length_cons]
              constructor
              · intro hlen
                have hlen' : (markValid rest (applyMarks comps0 (seen ++ [e.id]))).1 =
                    rest.length := by omega
                obtain ⟨hall, hnodup⟩ := ih5.1 hlen'
                refine ⟨?_, ?_⟩
                · intro x hx
                  rcases List.mem_cons.1 hx with rfl | hx'
                  · exact ⟨hvalidE, hmem⟩
                  · have := hall x hx'
                    exact ⟨this.1, fun hh => this.2 (List.mem_append.2 (Or.inl hh))⟩
                · rw [List.map_cons, List.nodup_cons]
                  refine ⟨?_, hnodup⟩
                  intro hmm
                  obtain ⟨x, hx, hxid⟩ := List.mem_map.1 hmm
                  exact (hall x hx).2
                    (List.mem_append.2 (Or.inr (List.mem_singleton.2 hxid)))
              · rintro ⟨hall, hnodup⟩
                have : (markValid rest (applyMarks comps0 (seen ++ [e.id]))).1 =
                    rest.length := by
                  apply ih5.2
                  rw [List.map_cons, List.nodup_cons] at hnodup
                  refine ⟨?_, hnodup.2⟩
                  intro x hx
                  have hx1 := hall x (List.mem_cons_of_mem e hx)
                  refine ⟨hx1.1, ?_⟩
                  intro hh
                  rcases List.mem_append.1 hh with hh | hh
                  · exact hx1.2 hh
                  · exact hnodup.1 (List.mem_map.2 ⟨x, hx, List.mem_singleton.1 hh⟩)
                rw [this]
          · -- generation mismatch against the original table: stop
            have hstop : markValid (e :: rest) (applyMarks comps0 seen) =
                (0, applyMarks comps0 seen) := by
              simp only [markValid, hS, hc]
              rw [if_neg hgen]
            rw [hstop] at hrun
            cases hrun
            have hbad : validSlotFor comps0 e = false := by
              simp [validSlotFor, hc, hgen]
            refine ⟨⟨by simp, by simp, by simp, by simp⟩, ?_⟩
            constructor
            · intro h0; cases h0
            · rintro ⟨hall, -⟩
              have := (hall e (List.mem_cons_self e rest)).1
              rw [hbad] at this
              cases this

/-- Under validity of every handle, distinctness of the (id, generation)
pairs is the same as distinctness of the ids, because the generation of a
valid handle is determined by its slot. -/
theorem nodup_ids_iff_distinct (es : List Entity) (comps0 : CompList C)
    (hall : ∀ e ∈ es, validSlotFor comps0 e = true) :
    (es.map Entity.id).Nodup ↔ distinctHandles es := by
  constructor
  · intro h
    have h' : es.Pairwise (fun a b => a.id ≠ b.id) := (List.pairwise_map).1 h
    exact h'.imp (fun hne hc => hne hc.1)
  · intro h
    apply (List.pairwise_map).2
    apply List.Pairwise.imp_of_mem ?_ h
    intro a b ha hb hnab heq
    apply hnab
    refine ⟨heq, ?_⟩
    have hva := hall a ha
    have hvb := hall b hb
    rcases hsa : comps0[a.id]? with _ | o
    · simp [validSlotFor, hsa] at hva
    · cases o with
      | none => simp [validSlotFor, hsa] at hva
      | some s =>
        simp only [validSlotFor, hsa, decide_eq_true_eq] at hva
        have hsb : comps0[b.id]? = some (some s) := by
          rw [← heq]; exact hsa
        simp only [validSlotFor, hsb, decide_eq_true_eq] at hvb
        rw [← hva, ← hvb]

/-- C1 amended: provided every input handle carries an even (alive-shaped)
generation, as every registry-issued handle does, get_many_mut returns the
write views of the input handles, in input order, view i built over the slot
of input handle i, exactly when every handle id is in range with a matching
stored generation and the (id, generation) pairs are pairwise distinct;
otherwise it returns none; and in either case the table is left exactly as it
was before the call (no stray low-bit marks remain). -/
theorem c1_get_many_mut_amended [Inhabited C] (cont : ComponentContainer C)
    (tick : Nat) (es : List Entity)
    (hev : ∀ e ∈ es, e.generation % 2 = 0) :
    get_many_mut cont tick es =
      (if manyMutOk cont es then some (es.map (viewOf cont tick)) else none,
        cont) := by
  obtain ⟨i, comps', hrun⟩ :
      ∃ i comps', markValid es cont.components = (i, comps') := ⟨_, _, rfl⟩
  have hrun0 : markValid es (applyMarks cont.components []) = (i, comps') := hrun
  obtain ⟨⟨h1, h2, h3, h4⟩, h5⟩ :=
    markValid_spec cont.components es [] i comps' hev (by simp)
      List.nodup_nil hrun0
  rw [List.nil_append] at h1
  have hclear : clearMarks comps' (es.take i) = cont.components := by
    rw [h1]
    exact clearMarks_applyMarks (es.take i) cont.components h2
      (fun e he => (h3 e.id (List.mem_map.2 ⟨e, he, rfl⟩)).2)
  have hgm : get_many_mut cont tick es =
      (if i = es.length then
        some (es.map fun e =>
          match cont.components[e.id]? with
          | some (some s) =>
            (⟨s.component, s.last_modified_tick, tick⟩ : CRefMut C)
          | _ => ⟨default, 0, tick⟩)
      else none, ⟨cont.components⟩) := by
    unfold get_many_mut
    rw [hrun]
    simp only
    rw [hclear]
    by_cases hi : i = es.length
    · rw [if_pos hi, if_pos hi]
    · rw [if_neg hi, if_neg hi]
  rw [hgm]
  by_cases hok : manyMutOk cont es
  · have hlen : i = es.length := by
      apply h5.2
      refine ⟨fun e he => ⟨hok.1 e he, by simp⟩, ?_⟩
      exact (nodup_ids_iff_distinct es cont.components hok.1).2 hok.2
    rw [if_pos hlen, if_pos hok]
    rfl
  · have hlen : i ≠ es.length := by
      intro hl
      obtain ⟨hall', hnd'⟩ := h5.1 hl
      exact hok ⟨fun e he => (hall' e he).1,
        (nodup_ids_iff_distinct es cont.components
          (fun e he => (hall' e he).1)).1 hnd'⟩
    rw [if_neg hlen, if_neg hok]

/-- Witness for the amended C1 theorem at a concrete table and input: two
valid distinct handles over a two-slot table of Nat components. -/
theorem c1_get_many_mut_witness :
    (let cont : ComponentContainer Nat := ⟨[some ⟨2, 5, 0⟩, some ⟨4, 9, 1⟩]⟩
     let es : List Entity := [⟨0, 2⟩, ⟨1, 4⟩]
     (∀ e ∈ es, e.generation % 2 = 0) ∧
       get_many_mut cont 3 es =
        (if manyMutOk cont es then some (es.map (viewOf cont 3)) else none,
          cont)) :=
  ⟨by decide, c1_get_many_mut_amended _ 3 _ (by decide)⟩

/-- system_set.rs: what register_system records about one system, its two
borrow maps as produced by check_system (the boxed system function itself is
irrelevant to scheduling). -/
structure SysDecl where
  resources : TMap
  components : TMap
deriving DecidableEq, Repr

/-- system_set.rs SystemGroup: one wave, its accumulated borrow maps and its
systems. -/
structure SystemGroup where
  resources : TMap
  components : TMap
  systems : List SysDecl
deriving DecidableEq, Repr

/-- system_set.rs: the conflict test of register_system.  An entry of the
wave map conflicts with the incoming map when the incoming map binds the same
type id and the two modes are not both Immutable. -/
def conflictsB (wave incoming : TMap) : Bool :=
  wave.any fun p =>
    match List.lookup p.1 incoming with
    | none => false
    | some other =>
      match p.2.borrow_type, other.borrow_type with
      | BorrowType.Immutable, BorrowType.Immutable => false
      | _, _ => true

/-- HashMap::extend modelled on association lists: insert every binding of
the incoming map into the wave map, overwriting on equal keys. -/
def extendMap (old incoming : TMap) : TMap :=
  incoming.foldl (fun m p => mapInsert m p.1 p.2) old

/-- system_set.rs SystemSet::register_system, the scan over existing waves:
skip a wave on conflict, otherwise push the system into it and extend its
borrow maps; append a fresh wave when every existing one conflicts. -/
def placeSystem (s : SysDecl) : List SystemGroup → List SystemGroup
  | [] => [⟨s.resources, s.components, [s]⟩]
  | g :: gs =>
    if conflictsB g.resources s.resources ||
        conflictsB g.components s.components then
      g :: placeSystem s gs
    else
      { resources := extendMap g.resources s.resources,
        components := extendMap g.components s.components,
        systems := g.systems ++ [s] } :: gs

/-- system_set.rs: registering one system into a system set. -/
def register_system (set : List SystemGroup) (s : SysDecl) : List SystemGroup :=
  placeSystem s set

/-- Registering a list of systems in order, starting from SystemSet::new. -/
def registerAll (ss : List SysDecl) : List SystemGroup :=
  ss.foldl register_system []

/-- The borrow mode a map declares for a type id. -/
def lookupBT (m : TMap) (t : Nat) : Option BorrowType :=
  (List.lookup t m).map Borrow.borrow_type

/-- The keys of an association map are distinct, as they are for the
HashMaps the maps model. -/
def keyNodup (m : TMap) : Prop := (m.map Prod.fst).Nodup

instance (m : TMap) : Decidable (keyNodup m) := by
  unfold keyNodup
  infer_instance

/-- A well-formed system declaration: both maps have distinct keys. -/
def goodSys (s : SysDecl) : Prop := keyNodup s.resources ∧ keyNodup s.components

instance (s : SysDecl) : Decidable (goodSys s) := by
  unfold goodSys
  infer_instance

theorem keyNodup_cons {p : Nat × Borrow} {ps : TMap} (h : keyNodup (p :: ps)) :
    p.1 ∉ ps.map Prod.fst ∧ keyNodup ps := by
  have h2 : (p.1 :: ps.map Prod.fst).Nodup := by
    have h3 : ((p :: ps).map Prod.fst).Nodup := h
    rwa [List.map_cons] at h3
  exact ⟨(List.nodup_cons.1 h2).1, (List.nodup_cons.1 h2).2⟩

theorem lookup_mem {a : Nat} {b : Borrow} :
    ∀ {l : TMap}, List.lookup a l = some b → (a, b) ∈ l := by
  intro l
  induction l with
  | nil => intro h; cases h
  | cons p ps ih =>
    intro h
    rw [lookup_cons_eqn] at h
    by_cases hp : a = p.1
    · rw [if_pos hp] at h
      cases h
      exact (show (a, p.2) = p from Prod.ext hp rfl) ▸ List.mem_cons_self p ps
    · rw [if_neg hp] at h
      exact List.mem_cons_of_mem _ (ih h)

theorem mem_lookup_of_keyNodup {a : Nat} {b : Borrow} :
    ∀ {l : TMap}, keyNodup l → (a, b) ∈ l → List.lookup a l = some b := by
  intro l
  induction l with
  | nil => intro _ h; cases h
  | cons p ps ih =>
    intro hnd h
    rcases List.mem_cons.1 h with rfl | h'
    · rw [lookup_cons_eqn, if_pos rfl]
    · have hkeys := (keyNodup_cons hnd).1
      have hne : a ≠ p.1 := by
        intro he
        exact hkeys (he ▸ List.mem_map.2 ⟨(a, b), h', rfl⟩)
      rw [lookup_cons_eqn, if_neg hne]
      exact ih (keyNodup_cons hnd).2 h'

theorem lookup_eq_none_of_notMemKeys {a : Nat} :
    ∀ {l : TMap}, a ∉ l.map Prod.fst → List.lookup a l = none := by
  intro l
  induction l with
  | nil => intro _; rfl
  | cons p ps ih =>
    intro h
    have hne : a ≠ p.1 := fun he =>
      h (List.mem_map.2 ⟨p, List.mem_cons_self p ps, he.symm⟩)
    rw [lookup_cons_eqn, if_neg hne]
    exact ih fun hm => h (by
      obtain ⟨q, hq, hqa⟩ := List.mem_map.1 hm
      exact List.mem_map.2 ⟨q, List.mem_cons_of_mem p hq, hqa⟩)

theorem keyNodup_mapInsert (m : TMap) (k : Nat) (v : Borrow)
    (h : keyNodup m) : keyNodup (mapInsert m k v) := by
  have hsub : ∀ q ∈ List.filter (fun p => p.1 != k) m, q ∈ m := by
    intro q hq
    exact (List.mem_filter.1 hq).1
  unfold keyNodup mapInsert
  rw [List.map_cons, List.nodup_cons]
  constructor
  · intro hk
    obtain ⟨q, hq, hqk⟩ := List.mem_map.1 hk
    have := (List.mem_filter.1 hq).2
    rw [hqk] at this
    simp at this
  · have : (List.filter (fun p => p.1 != k) m).Sublist m :=
      List.filter_sublist m
    exact (this.map Prod.fst).nodup h

theorem keyNodup_extendMap (incoming : TMap) :
    ∀ (old : TMap), keyNodup old → keyNodup (extendMap old incoming) := by
  induction incoming with
  | nil => intro old h; exact h
  | cons p ps ih =>
    intro old h
    exact ih _ (keyNodup_mapInsert old p.1 p.2 h)

theorem lookup_extendMap (incoming : TMap) :
    ∀ (old : TMap) (t : Nat), keyNodup incoming →
      List.lookup t (extendMap old incoming) =
        match List.lookup t incoming with
        | some v => some v
        | none => List.lookup t old := by
  induction incoming with
  | nil => intro old t _; rfl
  | cons p ps ih =>
    intro old t hnd
    have hnd' : keyNodup ps := (keyNodup_cons hnd).2
    have hpnot : p.1 ∉ ps.map Prod.fst := (keyNodup_cons hnd).1
    have hstep : extendMap old (p :: ps) = extendMap (mapInsert old p.1 p.2) ps := rfl
    rw [hstep, ih _ t hnd']
    by_cases ht : t = p.1
    · subst ht
      rw [lookup_eq_none_of_notMemKeys hpnot, lookup_cons_eqn, if_pos rfl,
        lookup_mapInsert, if_pos rfl]
    · rw [lookup_cons_eqn, if_neg ht]
      cases hps : List.lookup t ps with
      | some v => rfl
      | none => rw [lookup_mapInsert, if_neg ht]

/-- A wave map that passes the conflict scan is lookup-compatible with the
incoming map: any type bound in both is Immutable on both sides. -/
theorem conflictsB_false_compat (wave incoming : TMap)
    (h : conflictsB wave incoming = false) :
    ∀ t b o, List.lookup t wave = some b → List.lookup t incoming = some o →
      b.borrow_type = BorrowType.Immutable ∧
        o.borrow_type = BorrowType.Immutable := by
  intro t b o hwl hil
  have hall := List.any_eq_false.1 h (t, b) (lookup_mem hwl)
  simp only [hil] at hall
  cases hb : b.borrow_type <;> cases ho : o.borrow_type
  · exact ⟨rfl, rfl⟩
  all_goals (simp only [hb, ho] at hall; exact absurd trivial hall)

/-- One side of the scheduling invariant of a wave: how the accumulated
borrow map bounds the declared borrows of the members. -/
def sideInv (wave : TMap) (decls : List TMap) : Prop :=
  ∀ t : Nat,
    (lookupBT wave t = none → ∀ d ∈ decls, lookupBT d t = none) ∧
    (lookupBT wave t = some BorrowType.Immutable →
      ∀ d ∈ decls, lookupBT d t ≠ some BorrowType.Mutable) ∧
    (lookupBT wave t = some BorrowType.Mutable →
      decls.Pairwise (fun a b =>
        ¬((lookupBT a t).isSome = true ∧ (lookupBT b t).isSome = true)))

/-- The full invariant of a wave. -/
def WaveInv (g : SystemGroup) : Prop :=
  keyNodup g.resources ∧ keyNodup g.components ∧
  sideInv g.resources (g.systems.map SysDecl.resources) ∧
  sideInv g.components (g.systems.map SysDecl.components)

theorem sideInv_single (m : TMap) : sideInv m [m] := by
  intro t
  refine ⟨?_, ?_, ?_⟩
  · intro hn d hd
    rcases List.mem_singleton.1 hd with rfl
    exact hn
  · intro hi d hd
    rcases List.mem_singleton.1 hd with rfl
    rw [hi]
    intro hc
    cases hc
  · intro _
    exact List.pairwise_singleton _ _

theorem sideInv_extend (wave incoming : TMap) (decls : List TMap)
    (hni : keyNodup incoming)
    (hcompat : ∀ t b o, List.lookup t wave = some b →
      List.lookup t incoming = some o →
      b.borrow_type = BorrowType.Immutable ∧
        o.borrow_type = BorrowType.Immutable)
    (hinv : sideInv wave decls) :
    sideInv (extendMap wave incoming) (decls ++ [incoming]) := by
  intro t
  have hext := lookup_extendMap incoming wave t hni
  cases hi : List.lookup t incoming with
  | some o =>
    have hL : lookupBT (extendMap wave incoming) t = some o.borrow_type := by
      unfold lookupBT
      rw [hext, hi]
      rfl
    cases ho : o.borrow_type with
    | Mutable =>
      have hwnone : List.lookup t wave = none := by
        cases hw' : List.lookup t wave with
        | none => rfl
        | some b =>
          have hcp := (hcompat t b o hw' hi).2
          rw [ho] at hcp
          cases hcp
      have hwn : lookupBT wave t = none := by
        unfold lookupBT; rw [hwnone]; rfl
      have hdn := (hinv t).1 hwn
      refine ⟨?_, ?_, ?_⟩
      · intro hn
        rw [hL, ho] at hn
        cases hn
      · intro hii
        rw [hL, ho] at hii
        cases hii
      · intro _
        rw [List.pairwise_append]
        refine ⟨?_, List.pairwise_singleton _ _, ?_⟩
        · apply List.pairwise_of_forall_mem_list
          intro a ha b hb hc
          rw [hdn a ha] at hc
          simp [lookupBT] at hc
        · intro a ha b hb hc
          rw [hdn a ha] at hc
          simp [lookupBT] at hc
    | Immutable =>
      refine ⟨?_, ?_, ?_⟩
      · intro hn
        rw [hL, ho] at hn
        cases hn
      · intro _
        intro d hd
        rcases List.mem_append.1 hd with hd | hd
        · cases hw' : List.lookup t wave with
          | none =>
            have hwn : lookupBT wave t = none := by
              unfold lookupBT; rw [hw']; rfl
            rw [(hinv t).1 hwn d hd]
            intro hc
            cases hc
          | some b =>
            have hbi := (hcompat t b o hw' hi).1
            have hwi : lookupBT wave t = some BorrowType.Immutable := by
              simp [lookupBT, hw', hbi]
            exact (hinv t).2.1 hwi d hd
        · rcases List.mem_singleton.1 hd with rfl
          have : lookupBT d t = some BorrowType.Immutable := by
            simp [lookupBT, hi, ho]
          rw [this]
          intro hc
          cases hc
      · intro hm
        rw [hL, ho] at hm
        cases hm
  | none =>
    have hL : lookupBT (extendMap wave incoming) t = lookupBT wave t := by
      unfold lookupBT
      rw [hext, hi]
    have hincn : lookupBT incoming t = none := by
      unfold lookupBT; rw [hi]; rfl
    refine ⟨?_, ?_, ?_⟩
    · intro hn
      rw [hL] at hn
      intro d hd
      rcases List.mem_append.1 hd with hd | hd
      · exact (hinv t).1 hn d hd
      · rcases List.mem_singleton.1 hd with rfl
        exact hincn
    · intro hii
      rw [hL] at hii
      intro d hd
      rcases List.mem_append.1 hd with hd | hd
      · exact (hinv t).2.1 hii d hd
      · rcases List.mem_singleton.1 hd with rfl
        rw [hincn]
        intro hc
        cases hc
    · intro hm
      rw [hL] at hm
      rw [List.pairwise_append]
      refine ⟨(hinv t).2.2 hm, List.pairwise_singleton _ _, ?_⟩
      intro a ha b hb
      rcases List.mem_singleton.1 hb with rfl
      intro hc
      rw [hincn] at hc
      simp at hc

theorem placeSystem_inv (s : SysDecl) (hs : goodSys s) :
    ∀ gs : List SystemGroup, (∀ g ∈ gs, WaveInv g) →
      ∀ g ∈ placeSystem s gs, WaveInv g := by
  intro gs
  induction gs with
  | nil =>
    intro _ g hg
    rcases List.mem_singleton.1 hg with rfl
    refine ⟨hs.1, hs.2, ?_, ?_⟩
    · exact sideInv_single s.resources
    · exact sideInv_single s.components
  | cons g0 gs ih =>
    intro hall g hg
    rw [placeSystem] at hg
    by_cases hcond : (conflictsB g0.resources s.resources ||
        conflictsB g0.components s.components) = true
    · rw [if_pos hcond] at hg
      rcases List.mem_cons.1 hg with rfl | hg'
      · exact hall g (List.mem_cons_self _ _)
      · exact ih (fun x hx => hall x (List.mem_cons_of_mem _ hx)) g hg'
    · rw [if_neg hcond] at hg
      have hfalse := Bool.or_eq_false_iff.1 (Bool.eq_false_iff.2 hcond)
      rcases List.mem_cons.1 hg with rfl | hg'
      · have hg0 := hall g0 (List.mem_cons_self _ _)
        refine ⟨keyNodup_extendMap _ _ hg0.1, keyNodup_extendMap _ _ hg0.2.1,
          ?_, ?_⟩
        · have := sideInv_extend g0.resources s.resources
            (g0.systems.map SysDecl.resources) hs.1
            (conflictsB_false_compat _ _ hfalse.1) hg0.2.2.1
          simpa [List.map_append] using this
        · have := sideInv_extend g0.components s.components
            (g0.systems.map SysDecl.components) hs.2
            (conflictsB_false_compat _ _ hfalse.2) hg0.2.2.2
          simpa [List.map_append] using this
      · exact hall g (List.mem_cons_of_mem _ hg')

/-- Every wave of a set reachable by register_system calls on well-formed
systems satisfies the wave invariant. -/
theorem registerAll_inv (ss : List SysDecl) :
    ∀ (acc : List SystemGroup), (∀ s ∈ ss, goodSys s) →
      (∀ g ∈ acc, WaveInv g) →
      ∀ g ∈ ss.foldl register_system acc, WaveInv g := by
  induction ss with
  | nil => intro acc _ hacc; exact hacc
  | cons s rest ih =>
    intro acc hgood hacc
    exact ih (register_system acc s)
      (fun x hx => hgood x (List.mem_cons_of_mem _ hx))
      (placeSystem_inv s (hgood s (List.mem_cons_self _ _)) acc hacc)

/-- Claim side of C2: the declared borrows of two systems are compatible at a
type id when, if both declare it, both declare it Shared. -/
def conflictFreePair (t : Nat) (a b : TMap) : Prop :=
  (lookupBT a t).isSome = true → (lookupBT b t).isSome = true →
    lookupBT a t = some BorrowType.Immutable ∧
      lookupBT b t = some BorrowType.Immutable

theorem sideInv_pairwise (wave : TMap) (decls : List TMap)
    (h : sideInv wave decls) (t : Nat) :
    decls.Pairwise (conflictFreePair t) := by
  rcases hL : lookupBT wave t with _ | m
  · have hnone := (h t).1 hL
    apply List.pairwise_of_forall_mem_list
    intro a ha b hb hsa
    rw [hnone a ha] at hsa
    cases hsa
  · cases m with
    | Immutable =>
      have hni := (h t).2.1 hL
      apply List.pairwise_of_forall_mem_list
      intro a ha b hb hsa hsb
      have va : ∀ d ∈ decls, (lookupBT d t).isSome = true →
          lookupBT d t = some BorrowType.Immutable := by
        intro d hd hsd
        rcases Option.isSome_iff_exists.1 hsd with ⟨md, hmd⟩
        cases md with
        | Immutable => exact hmd
        | Mutable => exact absurd hmd (hni d hd)
      exact ⟨va a ha hsa, va b hb hsb⟩
    | Mutable =>
      have hp := (h t).2.2 hL
      exact hp.imp (fun hnab hsa hsb => absurd ⟨hsa, hsb⟩ hnab)

/-- C2: after any sequence of register_system calls on well-formed systems
(each system's maps have distinct keys, as HashMaps do), any two systems of
one wave that both declare one type id declare it Shared on both sides, for
the resource maps and the component maps alike; so no two systems of a wave
hold conflicting borrows. -/
theorem c2_wave_conflict_free (ss : List SysDecl)
    (hgood : ∀ s ∈ ss, goodSys s) :
    ∀ g ∈ registerAll ss, ∀ t : Nat,
      (g.systems.map SysDecl.resources).Pairwise (conflictFreePair t) ∧
      (g.systems.map SysDecl.components).Pairwise (conflictFreePair t) := by
  intro g hg t
  have hinv := registerAll_inv ss [] hgood (by intro g hg; cases hg) g hg
  exact ⟨sideInv_pairwise _ _ hinv.2.2.1 t, sideInv_pairwise _ _ hinv.2.2.2 t⟩

/-- Witness for C2: registering a Shared-A reader, another Shared-A reader
that also writes component B, and an Exclusive-A writer. -/
theorem c2_wave_conflict_free_witness :
    (let sharedA : SysDecl := ⟨[(0, ⟨0, "A", BorrowType.Immutable⟩)], []⟩
     let sharedAB : SysDecl :=
       ⟨[(0, ⟨0, "A", BorrowType.Immutable⟩)],
        [(1, ⟨1, "B", BorrowType.Mutable⟩)]⟩
     let writerA : SysDecl := ⟨[(0, ⟨0, "A", BorrowType.Mutable⟩)], []⟩
     let ss := [sharedA, sharedAB, writerA]
     (∀ s ∈ ss, goodSys s) ∧
       ∀ g ∈ registerAll ss, ∀ t : Nat,
         (g.systems.map SysDecl.resources).Pairwise (conflictFreePair t) ∧
         (g.systems.map SysDecl.components).Pairwise (conflictFreePair t)) :=
  ⟨by decide, c2_wave_conflict_free _ (by decide)⟩

/-- Claim side of C6: a wave accepts a system when neither borrow side
conflicts. -/
def noConflictB (s : SysDecl) (g : SystemGroup) : Bool :=
  !(conflictsB g.resources s.resources || conflictsB g.components s.components)

/-- Claim side of C6: the index of the earliest wave accepting the system. -/
def firstFit (s : SysDecl) : List SystemGroup → Option Nat
  | [] => none
  | g :: gs =>
    if noConflictB s g then some 0 else (firstFit s gs).map (· + 1)

/-- Claim side of C6: union of two optional borrows, an Exclusive borrow
dominating a Shared one of the same type. -/
def unionDom : Option BorrowType → Option BorrowType → Option BorrowType
  | none, b => b
  | some a, none => some a
  | some a, some b =>
    some (if a = BorrowType.Mutable ∨ b = BorrowType.Mutable then
      BorrowType.Mutable else BorrowType.Immutable)

theorem bnot_true {x : Bool} (h : (!x) = true) : x = false := by
  cases hx : x
  · rfl
  · rw [hx] at h; cases h

theorem bnot_false {x : Bool} (h : ¬(!x) = true) : x = true := by
  cases hx : x
  · exfalso; apply h; rw [hx]; rfl
  · rfl

/-- placeSystem is exactly first-fit: with no accepting wave it appends a
fresh one; with earliest accepting index i it rewrites wave i in place,
appending the system and extending the maps. -/
theorem placeSystem_firstFit (s : SysDecl) :
    ∀ gs : List SystemGroup,
      (firstFit s gs = none →
        placeSystem s gs = gs ++ [⟨s.resources, s.components, [s]⟩]) ∧
      (∀ i, firstFit s gs = some i →
        ∃ g, gs[i]? = some g ∧ noConflictB s g = true ∧
          placeSystem s gs = gs.set i
            ⟨extendMap g.resources s.resources,
             extendMap g.components s.components,
             g.systems ++ [s]⟩) := by
  intro gs
  induction gs with
  | nil =>
    refine ⟨fun _ => rfl, ?_⟩
    intro i h
    cases h
  | cons g0 gs ih =>
    by_cases hng : noConflictB s g0 = true
    · have hff : firstFit s (g0 :: gs) = some 0 := by
        rw [firstFit, if_pos hng]
      have hcond : (conflictsB g0.resources s.resources ||
          conflictsB g0.components s.components) = false := by
        unfold noConflictB at hng
        exact bnot_true hng
      constructor
      · intro hn
        rw [hff] at hn
        cases hn
      · intro i hi
        rw [hff] at hi
        cases hi
        refine ⟨g0, by simp, ?_, ?_⟩
        · unfold noConflictB
          rw [hcond]
          rfl
        · rw [placeSystem, if_neg (by rw [hcond]; intro hc; cases hc)]
          rfl
    · have hcond : (conflictsB g0.resources s.resources ||
          conflictsB g0.components s.components) = true := by
        unfold noConflictB at hng
        exact bnot_false hng
      have hff : firstFit s (g0 :: gs) = (firstFit s gs).map (· + 1) := by
        rw [firstFit, if_neg hng]
      constructor
      · intro hn
        rw [hff] at hn
        have hinner : firstFit s gs = none := by
          cases hfs : firstFit s gs with
          | none => rfl
          | some j => rw [hfs] at hn; cases hn
        rw [placeSystem, if_pos hcond, (ih.1 hinner)]
        rfl
      · intro i hi
        rw [hff] at hi
        cases hfs : firstFit s gs with
        | none => rw [hfs] at hi; cases hi
        | some j =>
          rw [hfs] at hi
          cases hi
          obtain ⟨g, hgg, hgn, hplace⟩ := ih.2 j hfs
          refine ⟨g, by simpa using hgg, hgn, ?_⟩
          rw [placeSystem, if_pos hcond, hplace]
          rfl

/-- On a conflict-free merge, the lookup of the extended map is the union
with Exclusive domination. -/
theorem lookup_extend_unionDom (wave incoming : TMap)
    (hni : keyNodup incoming)
    (hcompat : ∀ t b o, List.lookup t wave = some b →
      List.lookup t incoming = some o →
      b.borrow_type = BorrowType.Immutable ∧
        o.borrow_type = BorrowType.Immutable) :
    ∀ t, lookupBT (extendMap wave incoming) t =
      unionDom (lookupBT wave t) (lookupBT incoming t) := by
  intro t
  have hext := lookup_extendMap incoming wave t hni
  cases hi : List.lookup t incoming with
  | none =>
    cases hw : List.lookup t wave with
    | none =>
      simp [lookupBT, hext, hi, hw, unionDom]
    | some b =>
      simp [lookupBT, hext, hi, hw, unionDom]
  | some o =>
    cases hw : List.lookup t wave with
    | none =>
      simp [lookupBT, hext, hi, hw, unionDom]
    | some b =>
      have hbo := hcompat t b o hw hi
      simp [lookupBT, hext, hi, hw, unionDom, hbo.1, hbo.2]

/-- C6: register_system is greedy first-fit and deterministic.  Over any set
reachable by registering well-formed systems, registering a further
well-formed system either rewrites the earliest wave whose resource and
component maps both pass the conflict test, pushing the system and making
each wave map the union of the old map and the system's with Exclusive
dominating Shared, or, when every wave conflicts, appends a new wave holding
only that system. -/
theorem c6_register_first_fit (ss : List SysDecl) (s : SysDecl)
    (hgood : ∀ x ∈ ss, goodSys x) (hs : goodSys s) :
    (firstFit s (registerAll ss) = none →
      register_system (registerAll ss) s =
        registerAll ss ++ [⟨s.resources, s.components, [s]⟩]) ∧
    (∀ i, firstFit s (registerAll ss) = some i →
      ∃ g, (registerAll ss)[i]? = some g ∧
        register_system (registerAll ss) s =
          (registerAll ss).set i
            ⟨extendMap g.resources s.resources,
             extendMap g.components s.components,
             g.systems ++ [s]⟩ ∧
        (∀ t, lookupBT (extendMap g.resources s.resources) t =
          unionDom (lookupBT g.resources t) (lookupBT s.resources t)) ∧
        (∀ t, lookupBT (extendMap g.components s.components) t =
          unionDom (lookupBT g.components t) (lookupBT s.components t))) := by
  constructor
  · intro hn
    exact (placeSystem_firstFit s (registerAll ss)).1 hn
  · intro i hi
    obtain ⟨g, hgg, hgn, hplace⟩ :=
      (placeSystem_firstFit s (registerAll ss)).2 i hi
    have hcond : (conflictsB g.resources s.resources ||
        conflictsB g.components s.components) = false := by
      unfold noConflictB at hgn
      exact bnot_true hgn
    have hfalse := Bool.or_eq_false_iff.1 hcond
    refine ⟨g, hgg, hplace, ?_, ?_⟩
    · exact lookup_extend_unionDom g.resources s.resources hs.1
        (conflictsB_false_compat _ _ hfalse.1)
    · exact lookup_extend_unionDom g.components s.components hs.2
        (conflictsB_false_compat _ _ hfalse.2)

/-- Witness for C6: after a Shared-A reader and an Exclusive-B writer share
wave 0, an Exclusive-A writer must open wave 1, and a further Shared-B
reader lands in that second wave too. -/
theorem c6_register_first_fit_witness :
    (let sharedA : SysDecl := ⟨[(0, ⟨0, "A", BorrowType.Immutable⟩)], []⟩
     let writerB : SysDecl := ⟨[(1, ⟨1, "B", BorrowType.Mutable⟩)], []⟩
     let writerA : SysDecl := ⟨[(0, ⟨0, "A", BorrowType.Mutable⟩)], []⟩
     let ss := [sharedA, writerB]
     (∀ x ∈ ss, goodSys x) ∧ goodSys writerA ∧
       ((firstFit writerA (registerAll ss) = none →
          register_system (registerAll ss) writerA =
            registerAll ss ++ [⟨writerA.resources, writerA.components, [writerA]⟩]) ∧
        (∀ i, firstFit writerA (registerAll ss) = some i →
          ∃ g, (registerAll ss)[i]? = some g ∧
            register_system (registerAll ss) writerA =
              (registerAll ss).set i
                ⟨extendMap g.resources writerA.resources,
                 extendMap g.components writerA.components,
                 g.systems ++ [writerA]⟩ ∧
            (∀ t, lookupBT (extendMap g.resources writerA.resources) t =
              unionDom (lookupBT g.resources t) (lookupBT writerA.resources t)) ∧
            (∀ t, lookupBT (extendMap g.components writerA.components) t =
              unionDom (lookupBT g.components t)
                (lookupBT writerA.components t))))) :=
  ⟨by decide, by decide, c6_register_first_fit _ _ (by decide) (by decide)⟩

/-- app.rs App::run together with the mpsc command channel of commands.rs:
the execution state during one run.  The app state is abstract (commands are
FnOnce closures over the whole App, modelled as state transformers); pending
holds, per producer (per system of the running wave), the commands it has not
yet sent; queue is the channel content in arrival order. -/
structure ExecState (A : Type) where
  pending : List (List (A → A))
  queue : List (A → A)
  app : A

/-- One step of a run: either some producer sends its next command (the mpsc
channel appends it, preserving that producer's order), or, after every
producer has finished (the system has run to completion and the senders are
dropped), the drain loop of App::run pops the front of the channel and
applies it to the app. -/
inductive RunStep (A : Type) : ExecState A → ExecState A → Prop
  | send (st : ExecState A) (j : Nat) (c : A → A) (rest : List (A → A)) :
      st.pending[j]? = some (c :: rest) →
      RunStep A st ⟨st.pending.set j rest, st.queue ++ [c], st.app⟩
  | drain (st : ExecState A) (c : A → A) (q : List (A → A)) :
      (∀ l ∈ st.pending, l = []) →
      st.queue = c :: q →
      RunStep A st ⟨st.pending, q, c st.app⟩

/-- A complete App::run execution: from a fresh channel to an emptied one,
with every producer done and every queued command applied. -/
def RunExec (A : Type) (producers : List (List (A → A))) (app final : A) : Prop :=
  Relation.ReflTransGen (RunStep A)
    ⟨producers, [], app⟩
    ⟨producers.map (fun _ => []), [], final⟩

/-- An order-preserving interleaving of the producers' command sequences:
each step takes the head of one producer. -/
inductive Merge {τ : Type} : List (List τ) → List τ → Prop
  | nil (ls : List (List τ)) : (∀ l ∈ ls, l = []) → Merge ls []
  | step (ls : List (List τ)) (j : Nat) (c : τ) (rest : List τ)
      (arr : List τ) :
      ls[j]? = some (c :: rest) → Merge (ls.set j rest) arr →
      Merge ls (c :: arr)

theorem merge_of_empty {τ : Type} {ls : List (List τ)} {arr : List τ}
    (hemp : ∀ l ∈ ls, l = []) (h : Merge ls arr) : arr = [] := by
  cases h with
  | nil => rfl
  | step ls j c rest arr hj _ =>
    have := hemp (c :: rest) (List.getElem?_mem hj)
    cases this

theorem map_empty_of_all_empty {τ : Type} {ls : List (List τ)}
    (h : ∀ l ∈ ls, l = []) : ls.map (fun _ => ([] : List τ)) = ls := by
  induction ls with
  | nil => rfl
  | cons l ls ih =>
    rw [List.map_cons, ih (fun x hx => h x (List.mem_cons_of_mem _ hx)),
      h l (List.mem_cons_self _ _)]

theorem reach_collects (A : Type) (E0 : List (List (A → A))) (final : A)
    (hE0 : ∀ l ∈ E0, l = []) :
    ∀ (st : ExecState A),
      Relation.ReflTransGen (RunStep A) st ⟨E0, [], final⟩ →
      ∃ arr, Merge st.pending arr ∧
        final = (st.queue ++ arr).foldl (fun a c => c a) st.app := by
  intro st h
  induction h using Relation.ReflTransGen.head_induction_on with
  | refl =>
    refine ⟨[], Merge.nil E0 hE0, by simp⟩
  | @head a c hstep hrest ih =>
    obtain ⟨arr', hm', hf'⟩ := ih
    cases hstep with
    | send j cc rest hj =>
      refine ⟨cc :: arr', Merge.step a.pending j cc rest arr' hj hm', ?_⟩
      rw [hf', List.append_cons a.queue cc arr']
    | drain cc q hemp hq =>
      have harr : arr' = [] := merge_of_empty hemp hm'
      subst harr
      refine ⟨[], Merge.nil a.pending hemp, ?_⟩
      rw [hq]
      simp only [List.append_nil, List.foldl_cons]
      simpa using hf'

theorem merge_sends (A : Type) :
    ∀ {ls : List (List (A → A))} {arr : List (A → A)}, Merge ls arr →
      ∀ (q : List (A → A)) (app : A),
        Relation.ReflTransGen (RunStep A) ⟨ls, q, app⟩
          ⟨ls.map (fun _ => []), q ++ arr, app⟩ := by
  intro ls arr h
  induction h with
  | nil ls hemp =>
    intro q app
    rw [map_empty_of_all_empty hemp]
    rw [List.append_nil]
  | step ls j c rest arr hj hm ih =>
    intro q app
    have hstep : RunStep A ⟨ls, q, app⟩ ⟨ls.set j rest, q ++ [c], app⟩ :=
      RunStep.send ⟨ls, q, app⟩ j c rest hj
    have hrest := ih (q ++ [c]) app
    have hmapset : (ls.set j rest).map (fun _ => ([] : List (A → A))) =
        ls.map (fun _ => []) := by
      have hlt : j < ls.length := (List.getElem?_eq_some.1 hj).1
      rw [List.map_set]
      apply set_getElem?_self
      rw [List.getElem?_map]
      rw [(List.getElem?_eq_some.2 ⟨hlt, rfl⟩ : ls[j]? = some ls[j])]
      rfl
    rw [hmapset] at hrest
    rw [List.append_cons q c arr]
    exact Relation.ReflTransGen.head hstep hrest

theorem drain_all (A : Type) (E : List (List (A → A)))
    (hE : ∀ l ∈ E, l = []) :
    ∀ (arr : List (A → A)) (app : A),
      Relation.ReflTransGen (RunStep A) ⟨E, arr, app⟩
        ⟨E, [], arr.foldl (fun a c => c a) app⟩ := by
  intro arr
  induction arr with
  | nil => intro app; exact Relation.ReflTransGen.refl
  | cons c q ih =>
    intro app
    have hstep : RunStep A ⟨E, c :: q, app⟩ ⟨E, q, c app⟩ :=
      RunStep.drain ⟨E, c :: q, app⟩ c q hE rfl
    exact Relation.ReflTransGen.head hstep (ih (c app))

/-- C9: a complete App::run over a fresh command channel finishes exactly
when the final app state is the fold, in arrival order, of some
order-preserving interleaving of the producers' command sequences: the
system runs to completion first (sends happen before any drain), all queued
commands are applied before the run returns, and the channel preserves each
producer's enqueue order. -/
theorem c9_run_commands (A : Type) (producers : List (List (A → A)))
    (app final : A) :
    RunExec A producers app final ↔
      ∃ arr, Merge producers arr ∧
        final = arr.foldl (fun a c => c a) app := by
  constructor
  · intro h
    have hE0 : ∀ l ∈ producers.map (fun _ => ([] : List (A → A))), l = [] := by
      intro l hl
      obtain ⟨x, _, hx⟩ := List.mem_map.1 hl
      exact hx.symm
    obtain ⟨arr, hm, hf⟩ := reach_collects A _ final hE0 _ h
    exact ⟨arr, hm, by simpa using hf⟩
  · rintro ⟨arr, hm, hf⟩
    have h1 := merge_sends A hm [] app
    have hE : ∀ l ∈ producers.map (fun _ => ([] : List (A → A))), l = [] := by
      intro l hl
      obtain ⟨x, _, hx⟩ := List.mem_map.1 hl
      exact hx.symm
    have h2 := drain_all A _ hE arr app
    rw [← hf] at h2
    exact Relation.ReflTransGen.trans (by simpa using h1) h2

/-- query.rs and query_parameters.rs: the grammar of query parameters Q.
Tuples of arbitrary arity are represented by the empty tuple and nested
pairs, which have the same lock, iteration and suppression semantics as the
macro-generated n-ary tuple impls (exhaustion is the minimum over the parts,
a row is suppressed when any part reports an absent slot, and the empty
tuple iterator never exhausts). -/
inductive QP where
  | qref : Nat → QP
  | qrefMut : Nat → QP
  | qopt : QP → QP
  | qunit : QP
  | qpair : QP → QP → QP
deriving DecidableEq, Repr

/-- The view yielded for one entity by a query over Q: a Ref view, a RefMut
view, an inner-Option view for an optional part (voptSome and voptNone model
the Some and None of the inner Option), the unit view, or a pair. -/
inductive QVal (V : Type) where
  | vref : Ref V → QVal V
  | vrefMut : RefMut V → QVal V
  | voptSome : QVal V → QVal V
  | voptNone : QVal V
  | vunit : QVal V
  | vpair : QVal V → QVal V → QVal V
deriving DecidableEq, Repr

/-- Wrapping of the inner Option of an optional query part. -/
def QVal.vopt (o : Option (QVal V)) : QVal V :=
  match o with
  | some v => QVal.voptSome v
  | none => QVal.voptNone

/-- The slice of the run state that a Query consults: the entity registry
and the type-id-keyed component tables. -/
structure QState (V : Type) where
  entities : EntityMap
  components : Nat → Option (ComponentContainer V)

/-- query.rs: position i of the component stream of Q (the iterators built
by the ComponentContainerTrait impls).  The outer Option is iterator
exhaustion (none means the stream has ended at or before i); the inner
Option is the per-slot view (none suppresses the row).  A Ref or RefMut leaf
over a missing table is the empty iterator; the Option wrapper always yields
and moves the inner state into the view; the empty tuple yields forever; a
pair ends when either part ends and suppresses a row when either part does. -/
def qIterAt (st : QState V) (lrt ct : Nat) : QP → Nat → Option (Option (QVal V))
  | QP.qref t, i =>
    match st.components t with
    | none => none
    | some cont =>
      match cont.components[i]? with
      | none => none
      | some slot =>
        some (slot.map fun s =>
          QVal.vref ⟨s.component, s.last_modified_tick, lrt⟩)
  | QP.qrefMut t, i =>
    match st.components t with
    | none => none
    | some cont =>
      match cont.components[i]? with
      | none => none
      | some slot =>
        some (slot.map fun s =>
          QVal.vrefMut ⟨s.component, s.last_modified_tick, lrt, ct⟩)
  | QP.qopt q, i =>
    (qIterAt st lrt ct q i).map (fun o => some (QVal.vopt o))
  | QP.qunit, _ => some (some QVal.vunit)
  | QP.qpair a b, i =>
    match qIterAt st lrt ct a i, qIterAt st lrt ct b i with
    | some x, some y =>
      some (match x, y with
        | some vx, some vy => some (QVal.vpair vx vy)
        | _, _ => none)
    | _, _ => none

/-- Iterator::zip of the entity iterator against the component stream: stop
as soon as the stream is exhausted. -/
def zipStream : List B → Nat → (Nat → Option G) → List (B × G)
  | [], _, _ => []
  | a :: as, i, f =>
    match f i with
    | none => []
    | some b => (a, b) :: zipStream as (i + 1) f

/-- query.rs Query::iter and Query::iter_mut: zip the entity registry
iterator with the component stream of Q and keep the rows where the entity
is alive and the stream yields a view. -/
def queryIter (st : QState V) (lrt ct : Nat) (Q : QP) :
    List (Entity × QVal V) :=
  (zipStream (st.entities.iterList) 0 (qIterAt st lrt ct Q)).filterMap
    fun p =>
      match p.1, p.2 with
      | some e, some v => some (e, v)
      | _, _ => none

/-- Claim side of C4: the alive entity at a registry index, exactly the
element the registry iterator yields there. -/
def aliveAt (m : EntityMap) (i : Nat) : Option Entity :=
  match m.entities[i]? with
  | some (g, _) => if g % 2 = 0 then some ⟨i, g⟩ else none
  | none => none

/-- Claim side of C4: the length of the stream of Q, capped only through the
empty tuple (whose iterator is unbounded). -/
def qLen (st : QState V) (cap : Nat) : QP → Nat
  | QP.qref t =>
    match st.components t with
    | none => 0
    | some c => c.components.length
  | QP.qrefMut t =>
    match st.components t with
    | none => 0
    | some c => c.components.length
  | QP.qopt q => qLen st cap q
  | QP.qunit => cap
  | QP.qpair a b => min (qLen st cap a) (qLen st cap b)

/-- Claim side of C4: the view the claim predicts for entity id i, with the
inner None of an optional part for an absent component and no view at all
when a non-optional part is absent. -/
def qViewAt (st : QState V) (lrt ct : Nat) : QP → Nat → Option (QVal V)
  | QP.qref t, i =>
    match st.components t with
    | none => none
    | some cont =>
      match cont.components[i]? with
      | some (some s) =>
        some (QVal.vref ⟨s.component, s.last_modified_tick, lrt⟩)
      | _ => none
  | QP.qrefMut t, i =>
    match st.components t with
    | none => none
    | some cont =>
      match cont.components[i]? with
      | some (some s) =>
        some (QVal.vrefMut ⟨s.component, s.last_modified_tick, lrt, ct⟩)
      | _ => none
  | QP.qopt q, i => some (QVal.vopt (qViewAt st lrt ct q i))
  | QP.qunit, _ => some QVal.vunit
  | QP.qpair a b, i =>
    match qViewAt st lrt ct a i, qViewAt st lrt ct b i with
    | some x, some y => some (QVal.vpair x y)
    | _, _ => none

/-- Claim side of C4: one row of the predicted iteration. -/
def specRow (st : QState V) (lrt ct : Nat) (Q : QP) (i : Nat) :
    Option (Entity × QVal V) :=
  match aliveAt st.entities i, qViewAt st lrt ct Q i with
  | some e, some v => some (e, v)
  | _, _ => none

/-- Claim side of C4: the predicted iteration, truncated at the minimum of
the registry length and the involved table lengths. -/
def specIter (st : QState V) (lrt ct : Nat) (Q : QP) :
    List (Entity × QVal V) :=
  (List.range
      (min (qLen st st.entities.entities.length Q)
        st.entities.entities.length)).filterMap
    (specRow st lrt ct Q)

theorem qIterAt_isSome (st : QState V) (lrt ct : Nat) (n : Nat) :
    ∀ (Q : QP) (i : Nat), i < n →
      ((qIterAt st lrt ct Q i).isSome = true ↔ i < qLen st n Q) := by
  intro Q
  induction Q with
  | qref t =>
    intro i hi
    cases hc : st.components t with
    | none => simp [qIterAt, qLen, hc]
    | some cont =>
      cases hs : cont.components[i]? with
      | none =>
        have hlen := List.getElem?_eq_none_iff.1 hs
        simp only [qIterAt, qLen, hc, hs, Option.isSome_none]
        constructor
        · intro h; cases h
        · intro h; omega
      | some slot =>
        have hlt : i < cont.components.length := (List.getElem?_eq_some.1 hs).1
        simp [qIterAt, qLen, hc, hs, hlt]
  | qrefMut t =>
    intro i hi
    cases hc : st.components t with
    | none => simp [qIterAt, qLen, hc]
    | some cont =>
      cases hs : cont.components[i]? with
      | none =>
        have hlen := List.getElem?_eq_none_iff.1 hs
        simp only [qIterAt, qLen, hc, hs, Option.isSome_none]
        constructor
        · intro h; cases h
        · intro h; omega
      | some slot =>
        have hlt : i < cont.components.length := (List.getElem?_eq_some.1 hs).1
        simp [qIterAt, qLen, hc, hs, hlt]
  | qopt q ih =>
    intro i hi
    have hinner := ih i hi
    cases hq : qIterAt st lrt ct q i with
    | none =>
      rw [hq] at hinner
      simp only [qIterAt, qLen, hq]
      simpa using hinner
    | some o =>
      rw [hq] at hinner
      simp only [qIterAt, qLen, hq]
      simpa using hinner
  | qunit =>
    intro i hi
    simp [qIterAt, qLen, hi]
  | qpair a b iha ihb =>
    intro i hi
    have ha := iha i hi
    have hb := ihb i hi
    simp only [qIterAt, qLen, Nat.lt_min]
    cases hqa : qIterAt st lrt ct a i with
    | none =>
      rw [hqa] at ha
      simp only [Option.isSome_none] at ha
      simp only []
      constructor
      · intro h; cases h
      · rintro ⟨h1, -⟩
        exact absurd h1 (by intro hh; exact absurd (ha.2 hh) (by intro hc; cases hc))
    | some xa =>
      rw [hqa] at ha
      simp only [Option.isSome_some] at ha
      cases hqb : qIterAt st lrt ct b i with
      | none =>
        rw [hqb] at hb
        simp only [Option.isSome_none] at hb
        simp only []
        constructor
        · intro h; cases h
        · rintro ⟨-, h2⟩
          exact absurd h2 (by intro hh; exact absurd (hb.2 hh) (by intro hc; cases hc))
      | some xb =>
        rw [hqb] at hb
        simp only [Option.isSome_some] at hb
        simp only [Option.isSome_some]
        constructor
        · intro _
          exact ⟨ha.1 trivial, hb.1 trivial⟩
        · intro _
          trivial

theorem qIterAt_content (st : QState V) (lrt ct : Nat) :
    ∀ (Q : QP) (i : Nat) (x : Option (QVal V)),
      qIterAt st lrt ct Q i = some x → x = qViewAt st lrt ct Q i := by
  intro Q
  induction Q with
  | qref t =>
    intro i x h
    cases hc : st.components t with
    | none =>
      simp only [qIterAt, hc] at h
      cases h
    | some cont =>
      cases hs : cont.components[i]? with
      | none =>
        simp only [qIterAt, hc, hs] at h
        cases h
      | some slot =>
        simp only [qIterAt, hc, hs, Option.some.injEq] at h
        subst h
        simp only [qViewAt, hc, hs]
        cases slot with
        | none => rfl
        | some s => rfl
  | qrefMut t =>
    intro i x h
    cases hc : st.components t with
    | none =>
      simp only [qIterAt, hc] at h
      cases h
    | some cont =>
      cases hs : cont.components[i]? with
      | none =>
        simp only [qIterAt, hc, hs] at h
        cases h
      | some slot =>
        simp only [qIterAt, hc, hs, Option.some.injEq] at h
        subst h
        simp only [qViewAt, hc, hs]
        cases slot with
        | none => rfl
        | some s => rfl
  | qopt q ih =>
    intro i x h
    simp only [qIterAt] at h
    cases hq : qIterAt st lrt ct q i with
    | none =>
      rw [hq] at h
      simp only [Option.map_none'] at h
      cases h
    | some o =>
      rw [hq] at h
      simp only [Option.map_some', Option.some.injEq] at h
      subst h
      simp only [qViewAt]
      rw [ih i o hq]
  | qunit =>
    intro i x h
    simp only [qIterAt, Option.some.injEq] at h
    subst h
    rfl
  | qpair a b iha ihb =>
    intro i x h
    simp only [qIterAt] at h
    cases hqa : qIterAt st lrt ct a i with
    | none =>
      cases hqb : qIterAt st lrt ct b i with
      | none =>
        rw [hqa, hqb] at h
        cases h
      | some xb =>
        rw [hqa, hqb] at h
        cases h
    | some xa =>
      cases hqb : qIterAt st lrt ct b i with
      | none =>
        rw [hqa, hqb] at h
        cases h
      | some xb =>
        rw [hqa, hqb] at h
        simp only [Option.some.injEq] at h
        subst h
        simp only [qViewAt]
        rw [← iha i xa hqa, ← ihb i xb hqb]

theorem iterList_getElem? (m : EntityMap) (i : Nat) :
    m.iterList[i]? =
      if i < m.entities.length then some (aliveAt m i) else none := by
  unfold EntityMap.iterList aliveAt
  by_cases hi : i < m.entities.length
  · rw [if_pos hi, List.getElem?_map,
      (by simpa using List.getElem?_range hi : (List.range m.entities.length)[i]? = some i)]
    rfl
  · rw [if_neg hi, List.getElem?_map]
    rw [List.getElem?_eq_none_iff.2 (by simpa using Nat.le_of_not_lt hi)]
    rfl

theorem zipStream_spec (st : QState V) (lrt ct : Nat) (Q : QP) :
    ∀ (m k : Nat), k + m = st.entities.entities.length →
      (zipStream ((List.range' k m).map (fun i => aliveAt st.entities i)) k
          (qIterAt st lrt ct Q)).filterMap
        (fun p =>
          match p.1, p.2 with
          | some e, some v => some (e, v)
          | _, _ => none) =
      (List.range' k
          (min (qLen st st.entities.entities.length Q)
            st.entities.entities.length - k)).filterMap
        (specRow st lrt ct Q) := by
  intro m
  induction m with
  | zero =>
    intro k hk
    have : min (qLen st st.entities.entities.length Q)
        st.entities.entities.length - k = 0 := by omega
    rw [this]
    rfl
  | succ m ih =>
    intro k hk
    have hkn : k < st.entities.entities.length := by omega
    have hcons : List.range' k (m + 1) = k :: List.range' (k + 1) m := rfl
    rw [hcons, List.map_cons]
    cases hF : qIterAt st lrt ct Q k with
    | none =>
      have hlen : ¬ k < qLen st st.entities.entities.length Q := by
        rw [← qIterAt_isSome st lrt ct st.entities.entities.length Q k hkn,
          hF]
        intro hc
        cases hc
      have : min (qLen st st.entities.entities.length Q)
          st.entities.entities.length - k = 0 := by omega
      rw [this]
      rw [show zipStream
          (aliveAt st.entities k ::
            (List.range' (k + 1) m).map (fun i => aliveAt st.entities i)) k
          (qIterAt st lrt ct Q) = [] from by
        rw [zipStream, hF]]
      rfl
    | some x =>
      have hlen : k < qLen st st.entities.entities.length Q := by
        rw [← qIterAt_isSome st lrt ct st.entities.entities.length Q k hkn,
          hF]
        rfl
      have hsub : min (qLen st st.entities.entities.length Q)
          st.entities.entities.length - k =
          (min (qLen st st.entities.entities.length Q)
            st.entities.entities.length - (k + 1)) + 1 := by omega
      rw [hsub]
      rw [show List.range' k
          ((min (qLen st st.entities.entities.length Q)
            st.entities.entities.length - (k + 1)) + 1) =
          k :: List.range' (k + 1)
            (min (qLen st st.entities.entities.length Q)
              st.entities.entities.length - (k + 1)) from rfl]
      rw [show zipStream
          (aliveAt st.entities k ::
            (List.range' (k + 1) m).map (fun i => aliveAt st.entities i)) k
          (qIterAt st lrt ct Q) =
          (aliveAt st.entities k, x) ::
            zipStream ((List.range' (k + 1) m).map
              (fun i => aliveAt st.entities i)) (k + 1)
              (qIterAt st lrt ct Q) from by
        rw [zipStream, hF]]
      have hxq : x = qViewAt st lrt ct Q k := qIterAt_content st lrt ct Q k x hF
      subst hxq
      rw [List.filterMap_cons, List.filterMap_cons, ih (k + 1) (by omega)]
      rfl

/-- C4 amended: Query iteration yields, in increasing id order, exactly one
row per alive entity whose id lies below the truncation bound (the minimum
of the registry length and the length of every involved component table,
absent tables counting as length 0 and the empty tuple not constraining),
such that every non-optional part of Q is present; optional parts contribute
an inner None without suppressing the row.  Alive entities at or beyond the
truncation bound yield no row even when Q would be satisfied there, because
the zip stops at the shortest stream. -/
theorem c4_query_iter_amended (st : QState V) (lrt ct : Nat) (Q : QP) :
    queryIter st lrt ct Q = specIter st lrt ct Q := by
  unfold queryIter specIter
  have hiter : st.entities.iterList =
      (List.range' 0 st.entities.entities.length).map
        (fun i => aliveAt st.entities i) := by
    unfold EntityMap.iterList
    rw [← List.range_eq_range']
    rfl
  rw [hiter, zipStream_spec st lrt ct Q st.entities.entities.length 0 (Nat.zero_add _),
    ← List.range_eq_range']
  rfl

/-- C4 counterexample: two alive entities, component type 0 attached only to
entity 0 (table length 1), query Q = Option of Ref 0.  The claim yields a
row for every alive entity, entity 1 with inner None; the code stops at the
end of the one-slot table and yields only the entity-0 row, so the row the
claim predicts for the alive entity 1 is missing. -/
theorem c4_counterexample :
    (let st : QState Nat :=
      ⟨⟨[(2, []), (2, [])], 2⟩,
       fun t => if t = 0 then some ⟨[some ⟨2, 5, 0⟩]⟩ else none⟩
     let Q := QP.qopt (QP.qref 0)
     queryIter st 0 0 Q = [(⟨0, 2⟩, QVal.voptSome (QVal.vref ⟨5, 0, 0⟩))] ∧
       aliveAt st.entities 1 = some ⟨1, 2⟩ ∧
       qViewAt st 0 0 Q 1 = some QVal.voptNone ∧
       ∀ p ∈ queryIter st 0 0 Q, p.1 ≠ (⟨1, 2⟩ : Entity)) := by
  decide

end Thallium

